import Mathlib

/-!
Shallow embedding of the prereq-flow course-graph core
(`parse-courses.js` utilities: prerequisite parsing, graph metadata,
status propagation), together with proofs about the claims of the
specification.

Conventions of the embedding:
* JavaScript strings are Lean `String`s; regex matching over the three
  patterns used by the source (`COURSE_REGEX`, `DOUBLE_EITHER_REGEX`,
  `TRIPLE_EITHER_REGEX`, `CONCURRENT_REGEX`) is implemented directly as
  executable matchers over `List Char` with JS semantics (leftmost match,
  greedy quantifiers with the prefix alternative tried first).
* JavaScript `Map`/`Set` objects are association lists / id lists that
  preserve insertion order, as JS iteration order does.
* Code paths on which the JavaScript would throw a `TypeError`
  (`undefined` dereference) or propagate `undefined`/`NaN` into a node
  status are modelled by `Option`, returning `none` there.
* `nanoid()` (fresh random id generation for logic-gate nodes) is
  determinized as a counter threaded through parsing state; only
  freshness/shape of the generated id matters to the code.
-/

/-! ## Character classes and the COURSE_REGEX matcher

The source pattern is `(?:[A-Z&]+ )+\d{3}` (`CRS`). -/

def isUpperAmp (c : Char) : Bool :=
  ('A' ≤ c && c ≤ 'Z') || c = '&'

/-- Consume one `[A-Z&]+ ` group: one or more upper/ampersand chars then a
space. Returns `(consumed, rest)`. -/
def chompOneGroup (cs : List Char) : Option (List Char × List Char) :=
  match cs.takeWhile isUpperAmp, cs.drop (cs.takeWhile isUpperAmp).length with
  | [], _ => none
  | ls, c :: rest => if c = ' ' then some (ls ++ [' '], rest) else none
  | _, [] => none

/-- Consume `(?:[A-Z&]+ )+` greedily (as many groups as possible, at least
one). Since the group class (`[A-Z&]` and space) is disjoint from `\d`,
the greedy parse is equivalent to the backtracking regex semantics. -/
def chompGroups (fuel : Nat) (cs : List Char) : Option (List Char × List Char) :=
  match fuel with
  | 0 => none
  | f + 1 =>
    match chompOneGroup cs with
    | none => none
    | some (g, rest) =>
      match chompGroups f rest with
      | some (g2, rest2) => some (g ++ g2, rest2)
      | none => some (g, rest)

/-- Match `(?:[A-Z&]+ )+\d{3}` anchored at the head of `cs`.
Returns `(matched, rest)`. -/
def matchCRSAt (cs : List Char) : Option (List Char × List Char) :=
  match chompGroups (cs.length + 1) cs with
  | none => none
  | some (g, rest) =>
    match rest with
    | d1 :: d2 :: d3 :: rest2 =>
      if d1.isDigit && d2.isDigit && d3.isDigit then
        some (g ++ [d1, d2, d3], rest2)
      else none
    | _ => none

/-- Find the leftmost `COURSE_REGEX` match in `cs`; returns
`(matched, rest after the match)`. Models `COURSE_REGEX.test` /
the scan step of `String.prototype.match` with the global flag. -/
def crsFind : List Char → Option (List Char × List Char)
  | [] => none
  | c :: cs =>
    match matchCRSAt (c :: cs) with
    | some r => some r
    | none => crsFind cs

/-- All non-overlapping leftmost matches of `COURSE_REGEX`, as
`String.prototype.match(COURSE_REGEX)` (global) returns them.
A match always consumes at least one char, so `cs.length + 1` fuel
suffices. -/
def matchAllCRS (fuel : Nat) (cs : List Char) : List (List Char) :=
  match fuel with
  | 0 => []
  | f + 1 =>
    match crsFind cs with
    | none => []
    | some (m, rest) => m :: matchAllCRS f rest

/-- Model of `section.match(COURSE_REGEX)`: the (possibly empty) list of
course-id tokens in `s`, left to right. JS returns `null` for no match;
the empty list plays that role and callers test emptiness. -/
def courseMatches (s : String) : List String :=
  (matchAllCRS (s.data.length + 1) s.data).map List.asString

/-- Model of `COURSE_REGEX.test(s)`. Within `generateInitialElements`
every use of the (stateful, global) regex starts with `lastIndex = 0`,
because `String.prototype.match` resets it; so `test` is pure here. -/
def hasCourseMatch (s : String) : Bool :=
  (crsFind s.data).isSome

/-- Split on `';'` with JavaScript `String.prototype.split(";")`
semantics: `""` yields `[""]`, adjacent separators yield empty pieces. -/
def splitSemis : List Char → List (List Char)
  | [] => [[]]
  | c :: cs =>
    if c = ';' then [] :: splitSemis cs
    else
      match splitSemis cs with
      | [] => [[c]]
      | s :: rest => (c :: s) :: rest

/-- Model of `prerequisite.split(";")`. -/
def splitSections (s : String) : List String :=
  (splitSemis s.data).map List.asString

/-! ## DOUBLE_EITHER, TRIPLE_EITHER, CONCURRENT matchers -/

/-- Consume the literal `pat` at the head of `cs`. -/
def litChomp (pat : List Char) (cs : List Char) : Option (List Char) :=
  if pat.isPrefixOf cs then some (cs.drop pat.length) else none

/-- Consume the optional `(?:[Ee]ither )` prefix (present-alternative). -/
def eitherPrefixDrop (cs : List Char) : Option (List Char) :=
  match litChomp "Either ".data cs with
  | some r => some r
  | none => litChomp "either ".data cs

/-- Body of `DOUBLE_EITHER_REGEX` after the optional prefix:
`(CRS) or (CRS)`. -/
def doubleBodyAt (cs : List Char) : Option (String × String) :=
  match matchCRSAt cs with
  | none => none
  | some (g1, r1) =>
    match litChomp " or ".data r1 with
    | none => none
    | some r2 =>
      match matchCRSAt r2 with
      | none => none
      | some (g2, _) => some (g1.asString, g2.asString)

/-- `DOUBLE_EITHER_REGEX` anchored at the head of `cs`: the optional
prefix alternative is tried first (greedy `?`). -/
def doubleAt (cs : List Char) : Option (String × String) :=
  match eitherPrefixDrop cs with
  | some r =>
    match doubleBodyAt r with
    | some m => some m
    | none => doubleBodyAt cs
  | none => doubleBodyAt cs

/-- Leftmost-match scan for the double-either pattern. -/
def doubleScan : List Char → Option (String × String)
  | [] => doubleAt []
  | c :: cs =>
    match doubleAt (c :: cs) with
    | some m => some m
    | none => doubleScan cs

/-- Model of `section.match(DOUBLE_EITHER_REGEX)`: captures of the leftmost
match of `(?:[Ee]ither )?(CRS) or (CRS)`. -/
def doubleEitherMatch (s : String) : Option (String × String) :=
  doubleScan s.data

/-- After the second capture of the triple pattern: `,? or ` — the greedy
optional comma alternative is tried first. -/
def tripleCommaOr (cs : List Char) : Option (List Char) :=
  match cs with
  | ',' :: r =>
    match litChomp " or ".data r with
    | some r2 => some r2
    | none => litChomp " or ".data cs
  | _ => litChomp " or ".data cs

/-- Body of `TRIPLE_EITHER_REGEX` after the optional prefix:
`(CRS), (CRS),? or (CRS)`. -/
def tripleBodyAt (cs : List Char) : Option (String × String × String) :=
  match matchCRSAt cs with
  | none => none
  | some (g1, r1) =>
    match litChomp ", ".data r1 with
    | none => none
    | some r2 =>
      match matchCRSAt r2 with
      | none => none
      | some (g2, r3) =>
        match tripleCommaOr r3 with
        | none => none
        | some r4 =>
          match matchCRSAt r4 with
          | none => none
          | some (g3, _) => some (g1.asString, g2.asString, g3.asString)

/-- `TRIPLE_EITHER_REGEX` anchored at the head of `cs`. -/
def tripleAt (cs : List Char) : Option (String × String × String) :=
  match eitherPrefixDrop cs with
  | some r =>
    match tripleBodyAt r with
    | some m => some m
    | none => tripleBodyAt cs
  | none => tripleBodyAt cs

/-- Leftmost-match scan for the triple-either pattern. -/
def tripleScan : List Char → Option (String × String × String)
  | [] => tripleAt []
  | c :: cs =>
    match tripleAt (c :: cs) with
    | some m => some m
    | none => tripleScan cs

/-- Model of `section.match(TRIPLE_EITHER_REGEX)`: captures of the leftmost
match of `(?:[Ee]ither )?(CRS), (CRS),? or (CRS)`. -/
def tripleEitherMatch (s : String) : Option (String × String × String) :=
  tripleScan s.data

/-- Tail alternatives of `CONCURRENT_REGEX`:
`(?:\. Instructor|\.?$)`. -/
def ccTailOk (cs : List Char) : Bool :=
  (litChomp ". Instructor".data cs).isSome || cs = ['.'] || cs = []

/-- Body of `CONCURRENT_REGEX` after the optional `either of ` prefix:
`which may be taken concurrently` then the tail alternatives. -/
def ccBodyAt (cs : List Char) : Bool :=
  match litChomp "which may be taken concurrently".data cs with
  | some r => ccTailOk r
  | none => false

/-- `CONCURRENT_REGEX` anchored at the head of `cs`; the optional
`(?:either of )` prefix alternative is tried first. -/
def ccAt (cs : List Char) : Bool :=
  (match litChomp "either of ".data cs with
   | some r => ccBodyAt r
   | none => false) || ccBodyAt cs

/-- Leftmost-match scan for `CONCURRENT_REGEX`. -/
def ccScan : List Char → Bool
  | [] => ccAt []
  | c :: cs => ccAt (c :: cs) || ccScan cs

/-- Model of `CONCURRENT_REGEX.test(s)`. -/
def concurrentTest (s : String) : Bool :=
  ccScan s.data

/-! ## Data model

Nodes and edges as created by `newCourseNode`, `newConditionalNode` and
`newEdge`. The JS objects are duck-typed; the de-facto variants produced
by the source are `course`, `and` and `or` nodes (string tags in JS,
a sum type here) and edges. -/

/-- External course record: `{ id, prerequisite, ... }`. -/
structure CourseData where
  id : String
  prerequisite : String
deriving DecidableEq, Repr

/-- Node variant tag: `"course" | "and" | "or"`. -/
inductive NodeType where
  | course
  | and
  | or
deriving DecidableEq, Repr

/-- The `data` object of a node: course payload (for course nodes) plus
`nodeStatus` and `nodeConnected`. -/
structure NodeDataFields where
  course : Option CourseData
  nodeStatus : String
  nodeConnected : Bool
deriving DecidableEq, Repr

/-- Position `{x, y}` (owned by presentation; always `ZERO_POSITION` at
creation time). -/
def ZERO_POSITION : Int × Int := (0, 0)

/-- A flow element: node or edge (react-flow distinguishes them by the
presence of `source`/`target`, i.e. `isNode`/`isEdge`). -/
inductive Element where
  | node (id : String) (type : NodeType) (position : Int × Int)
      (data : NodeDataFields)
  | edge (id : String) (source : String) (target : String)
      (className : String) (label : Option String)
deriving DecidableEq, Repr

/-- The `id` field common to nodes and edges. -/
def Element.elemId : Element → String
  | .node id .. => id
  | .edge id .. => id

/-- Model of react-flow `isNode`. -/
def Element.isNode : Element → Bool
  | .node .. => true
  | .edge .. => false

/-- Model of react-flow `isEdge`. -/
def Element.isEdge : Element → Bool
  | .node .. => false
  | .edge .. => true

/-- Model of `newCourseNode(courseData)`. -/
def newCourseNode (courseData : CourseData) : Element :=
  .node courseData.id .course ZERO_POSITION
    { course := some courseData
      nodeStatus := "over-one-away"
      nodeConnected := false }

/-- String tag of a node type, as used for the generated id of
`newConditionalNode` (`type.toUpperCase()`). -/
def NodeType.tagUpper : NodeType → String
  | .course => "COURSE"
  | .and => "AND"
  | .or => "OR"

/-- Model of `newConditionalNode(type)`. The source id is
`` `${type.toUpperCase()}-${nanoid()}` ``; `nanoid()` is determinized as
a counter `n` threaded through the parser state. -/
def newConditionalNode (type : NodeType) (n : Nat) : Element :=
  .node (type.tagUpper ++ "-" ++ toString n) type ZERO_POSITION
    { course := none
      nodeStatus := "completed"
      nodeConnected := false }

/-- Model of `edgeArrowId(source, target)`. -/
def edgeArrowId (source target : String) : String :=
  source ++ " -> " ++ target

/-- Model of `newEdge(source, target, id = null)`. -/
def newEdge (source target : String) (id : Option String) : Element :=
  .edge (id.getD (edgeArrowId source target)) source target "over-one-away" none

/-- Attach `CONCURRENT_LABEL` to an edge
(`edge = { ...edge, ...CONCURRENT_LABEL }`, whose only field the model
carries is `label: "CC"`). -/
def withConcurrentLabel : Element → Element
  | .edge id s t cls _ => .edge id s t cls (some "CC")
  | e => e

/-! ## generateInitialElements -/

/-- Parser state: the growing `elements` array, the `elementIds` set
(insertion-ordered, only membership is used) and the fresh-id counter
standing in for `nanoid()`. -/
structure GenState where
  elements : List Element
  elementIds : List String
  nextId : Nat
deriving DecidableEq, Repr

/-- Membership in the `elementIds` set. -/
def idsHas (ids : List String) (x : String) : Bool :=
  ids.contains x

/-- Model of `addEdges(sources, target, elements, elementIds)`: for each
source, add the edge `source -> target` only if the source is a known
element id and neither the edge nor its reverse is present. -/
def addEdges (sources : List String) (target : String) (st : GenState) : GenState :=
  sources.foldl
    (fun st source =>
      let edgeId := edgeArrowId source target
      if idsHas st.elementIds source
          && !idsHas st.elementIds edgeId
          && !idsHas st.elementIds (edgeArrowId target source) then
        { st with
          elements := st.elements ++ [newEdge source target (some edgeId)]
          elementIds := st.elementIds ++ [edgeId] }
      else st)
    st

/-- Record a deferred ambiguous sect for `courseId` in the
insertion-ordered `secondPass` map. -/
def deferSection (m : List (String × List String)) (courseId sect : String) :
    List (String × List String) :=
  if m.any (fun p => p.1 = courseId) then
    m.map (fun p => if p.1 = courseId then (p.1, p.2 ++ [sect]) else p)
  else
    m ++ [(courseId, [sect])]

/-- One section of the first pass: a clause with a single course token
becomes a direct edge (via `addEdges`); a clause with several tokens is
deferred to the second pass. -/
def firstPassStep (courseId : String)
    (acc : GenState × List (String × List String)) (sect : String) :
    GenState × List (String × List String) :=
  match courseMatches sect with
  | [] => acc
  | [single] => (addEdges [single] courseId acc.1, acc.2)
  | _ => (acc.1, deferSection acc.2 courseId sect)

/-- First pass over one course's prerequisite sections. -/
def firstPassSections (courseId : String) (sections : List String)
    (acc : GenState × List (String × List String)) :
    GenState × List (String × List String) :=
  sections.foldl (firstPassStep courseId) acc

/-- One course of the first pass. -/
def firstPassCourse (acc : GenState × List (String × List String))
    (data : CourseData) : GenState × List (String × List String) :=
  if !hasCourseMatch data.prerequisite then acc
  else firstPassSections data.id (splitSections data.prerequisite) acc

/-- First pass of `generateInitialElements`: unambiguous prerequisites.
Returns the updated state and the `secondPass` map. -/
def firstPass (courseData : List CourseData) (st : GenState) :
    GenState × List (String × List String) :=
  courseData.foldl firstPassCourse (st, [])

/-- The state `generateInitialElements` starts from: one course node per
record, the record ids as the known element ids. -/
def initialGenState (courseData : List CourseData) : GenState :=
  { elements := courseData.map newCourseNode
    elementIds := courseData.map (fun c => c.id)
    nextId := 0 }

/-- Captures of the deferred-clause pattern match:
`tripleEitherMatch || doubleEitherMatch` (triple first). -/
def eitherCaptures (sect : String) : Option (List String) :=
  match tripleEitherMatch sect with
  | some (a, b, c) => some [a, b, c]
  | none =>
    match doubleEitherMatch sect with
    | some (a, b) => some [a, b]
    | none => none

/-- Second pass processing of one deferred sect for `course`.
Returns `none` where the JS would throw (`sect.match(COURSE_REGEX)`
is `null` and `.length` is taken), which cannot happen for sections the
first pass actually defers. -/
def processSection (ambiguousHandling : String) (course sect : String)
    (st : GenState) : Option GenState :=
  let numCourses := (courseMatches sect).length
  if numCourses = 0 then none
  else
    match eitherCaptures sect with
    | some captures =>
      if captures.length = numCourses then
        let alreadyRequired := captures.filter (fun m => idsHas st.elementIds m)
        if alreadyRequired.length = 1 then
          let edge := newEdge (alreadyRequired.headD "") course none
          let edge := if concurrentTest sect then withConcurrentLabel edge else edge
          some { st with elements := st.elements ++ [edge] }
        else if 1 < alreadyRequired.length then
          let orNode := newConditionalNode .or st.nextId
          let orId := orNode.elemId
          let gateEdge := newEdge orId course none
          let reqEdges := alreadyRequired.map (fun req =>
            let edge := newEdge req orId none
            if concurrentTest sect then withConcurrentLabel edge else edge)
          some { st with
            elements := st.elements ++ [orNode, gateEdge] ++ reqEdges
            nextId := st.nextId + 1 }
        else if ambiguousHandling = "aggressively" then
          some (addEdges captures course st)
        else some st
      else if ambiguousHandling = "aggressively" then
        some (addEdges (courseMatches sect) course st)
      else some st
    | none =>
      if ambiguousHandling = "aggressively" then
        some (addEdges (courseMatches sect) course st)
      else some st

/-- Second pass of `generateInitialElements` over the deferred map. -/
def secondPass (ambiguousHandling : String)
    (pend : List (String × List String)) (st : GenState) : Option GenState :=
  pend.foldlM
    (fun st entry =>
      entry.2.foldlM
        (fun st sect => processSection ambiguousHandling entry.1 sect st)
        st)
    st

/-- Model of `generateInitialElements(courseData, ambiguousHandling)`. -/
def generateInitialElements (courseData : List CourseData)
    (ambiguousHandling : String) : Option (List Element) :=
  let fp := firstPass courseData (initialGenState courseData)
  (secondPass ambiguousHandling fp.2 fp.1).map (fun st => st.elements)

/-! ## Association-list maps

JavaScript `Map`s, modelled as insertion-ordered association lists:
`alGet` reads the (first) binding, `alSet` overwrites it in place or
appends a new binding and `alUpdate` modifies an existing binding. -/

def alGet {α : Type} (m : List (String × α)) (k : String) : Option α :=
  (m.find? (fun p => p.1 = k)).map (fun p => p.2)

def alSet {α : Type} (m : List (String × α)) (k : String) (v : α) :
    List (String × α) :=
  if m.any (fun p => p.1 = k) then
    m.map (fun p => if p.1 = k then (k, v) else p)
  else m ++ [(k, v)]

/-! ## Graph metadata engine

The adjacency helpers come from the external `react-flow-renderer`
package, whose code is not part of this repository. -/

/-- Modelled from the spec: react-flow `getConnectedEdges` filtered on
`edge.target` (the source's `getIncomingEdges`) — "compute direct
incoming/outgoing node and edge lists by filtering the edge list on
source/target equality with the node id". -/
def incomingEdgesOf (nodeId : String) (elements : List Element) : List Element :=
  elements.filter (fun e =>
    match e with
    | .edge _ _ t _ _ => t = nodeId
    | .node .. => false)

/-- Modelled from the spec: react-flow `getConnectedEdges` filtered on
`edge.source` (the source's `getOutgoingEdges`). -/
def outgoingEdgesOf (nodeId : String) (elements : List Element) : List Element :=
  elements.filter (fun e =>
    match e with
    | .edge _ s _ _ _ => s = nodeId
    | .node .. => false)

/-- Source field of an element (edges only; `""` never occurs on the
edges these helpers return). -/
def Element.edgeSource : Element → String
  | .edge _ s _ _ _ => s
  | .node .. => ""

/-- Target field of an element (edges only). -/
def Element.edgeTarget : Element → String
  | .edge _ _ t _ _ => t
  | .node .. => ""

/-- Per-node derived metadata record. -/
structure NodeDataRec where
  depth : Nat
  incomingNodes : List String
  incomingEdges : List String
  outgoingEdges : List String
  outgoingNodes : List String
  connectedEdges : List String
  connectedNodes : List String
deriving DecidableEq, Repr

/-- The metadata `Map<nodeId, NodeDataRec>`. -/
abbrev NodeDataMap : Type := List (String × NodeDataRec)

/-- Initial metadata record of one node: adjacency lists, depth 0. -/
def initialDataOf (nodeId : String) (elements : List Element) : NodeDataRec :=
  let inc := incomingEdgesOf nodeId elements
  let out := outgoingEdgesOf nodeId elements
  let incomingNodes := inc.map Element.edgeSource
  let incomingEdges := inc.map Element.elemId
  let outgoingEdges := out.map Element.elemId
  let outgoingNodes := out.map Element.edgeTarget
  { depth := 0
    incomingNodes := incomingNodes
    incomingEdges := incomingEdges
    outgoingEdges := outgoingEdges
    outgoingNodes := outgoingNodes
    connectedEdges := incomingEdges ++ outgoingEdges
    connectedNodes := incomingNodes ++ outgoingNodes }

/-- Model of `discoverMaxDepths`: the recursion of the source is merged
with the `for` loop over `outgoingNodes` into one fueled function over
the pending child list. `visitOutgoers fuel outgoers startDepth m`
processes the outgoer list of a node whose depth argument was
`startDepth`; for each outgoer it raises the outgoer's depth to at least
`startDepth + 1` and recurses into that outgoer's own outgoer list.
`none` models both fuel exhaustion (the unbounded recursion on a cyclic
graph) and the `TypeError` on a missing metadata entry. -/
def visitOutgoers : Nat → List String → Nat → NodeDataMap → Option NodeDataMap
  | _, [], _, m => some m
  | 0, _ :: _, _, _ => none
  | f + 1, o :: os, startDepth, m =>
    match alGet m o with
    | none => none
    | some rec =>
      let m1 := alSet m o { rec with depth := max rec.depth (startDepth + 1) }
      match visitOutgoers f rec.outgoingNodes (startDepth + 1) m1 with
      | none => none
      | some m2 => visitOutgoers f os startDepth m2

/-- Model of `discoverMaxDepths(startNodeId, startDepth, nodeData)`. -/
def discoverMaxDepths (fuel : Nat) (startNodeId : String) (startDepth : Nat)
    (nodeData : NodeDataMap) : Option NodeDataMap :=
  match alGet nodeData startNodeId with
  | none => none
  | some rec => visitOutgoers fuel rec.outgoingNodes startDepth nodeData

/-- Node elements of an element list, in order. -/
def nodesOf (elements : List Element) : List Element :=
  elements.filter Element.isNode

/-- The `initialNodeData` map of `newNodeData(elements)`: one record per
node element, inserted in element order. -/
def initialNodeData (elements : List Element) : NodeDataMap :=
  (nodesOf elements).foldl
    (fun m n => alSet m n.elemId (initialDataOf n.elemId elements)) []

/-- The `roots` list of `newNodeData(elements)`: ids of node elements
whose `incomingNodes` list is empty. -/
def rootIds (elements : List Element) : List String :=
  ((nodesOf elements).filter
    (fun n => (initialDataOf n.elemId elements).incomingNodes = [])).map
    Element.elemId

/-- Model of `newNodeData(elements)` (with explicit fuel for the
depth-discovery recursion, which the source leaves unbounded and which
terminates only on acyclic graphs). -/
def newNodeData (fuel : Nat) (elements : List Element) : Option NodeDataMap :=
  (rootIds elements).foldlM
    (fun m root => discoverMaxDepths fuel root 0 m) (initialNodeData elements)

/-- Model of `newElemIndexes(elements)` (`Map` of id to position; later
entries overwrite earlier ones, as the `Map` constructor does). -/
def newElemIndexes (elements : List Element) : List (String × Nat) :=
  (elements.enum.map (fun p => (p.2.elemId, p.1))).foldl
    (fun m p => alSet m p.1 p.2) []

/-! ## Status propagation engine -/

/-- The ordered status list `COURSE_STATUSES`. -/
def COURSE_STATUSES : List String :=
  ["completed", "enrolled", "ready", "under-one-away", "one-away",
   "over-one-away"]

/-- Index of `s` in `l`, counting from `n`. -/
def idxFrom (s : String) : List String → Nat → Option Nat
  | [], _ => none
  | x :: xs, n => if x = s then some n else idxFrom s xs (n + 1)

/-- Model of `COURSE_STATUS_CODES[status]` (`undefined`, i.e. `none`, off
the table). -/
def COURSE_STATUS_CODES (status : String) : Option Nat :=
  idxFrom status COURSE_STATUSES 0

/-- Model of `getEdgeStatus(edge)`: the status code of the edge class,
except that a concurrent (`"CC"`-labelled) edge whose code is `enrolled`
counts as `completed`. `none` models the `undefined`/`NaN` propagation
the JS produces on a non-edge element or an unknown class. -/
def getEdgeStatus : Element → Option Nat
  | .edge _ _ _ className label =>
    match COURSE_STATUS_CODES className with
    | none => none
    | some code =>
      if code = 1 && label = some "CC" then some 0 else some code
  | .node .. => none

/-- One step of the outgoing-edge loop of `setNodeStatus`:
`elements[elemIndexes.get(edgeId)] = { ...old, className: newStatus }`. -/
def reclassEdge (newStatus : String) (elemIndexes : List (String × Nat))
    (els : List Element) (edgeId : String) : Option (List Element) :=
  match alGet elemIndexes edgeId with
  | none => none
  | some j =>
    match els.get? j with
    | some (.edge eid s t _ lbl) => some (els.set j (.edge eid s t newStatus lbl))
    | _ => none

/-- Model of `setNodeStatus(nodeId, newStatus, elements, nodeData,
elemIndexes)`: write the node's `data.nodeStatus` and re-class its
outgoing edges. `none` models the `TypeError`s on missing indexes and
the write of edge fields into a non-edge element. -/
def setNodeStatus (nodeId newStatus : String) (elements : List Element)
    (nodeData : NodeDataMap) (elemIndexes : List (String × Nat)) :
    Option (List Element) :=
  match alGet elemIndexes nodeId with
  | none => none
  | some i =>
    match elements.get? i with
    | some (.node id ty pos dat) =>
      let els1 := elements.set i (.node id ty pos { dat with nodeStatus := newStatus })
      match alGet nodeData nodeId with
      | none => none
      | some rec =>
        rec.outgoingEdges.foldlM (reclassEdge newStatus elemIndexes) els1
    | _ => none

/-- The incoming-edge elements of `nodeId`, resolved through
`elemIndexes` as `updateNodeStatus` resolves them. -/
def resolveIncomingEdges (nodeId : String) (elements : List Element)
    (nodeData : NodeDataMap) (elemIndexes : List (String × Nat)) :
    Option (List Element) :=
  match alGet nodeData nodeId with
  | none => none
  | some rec =>
    rec.incomingEdges.mapM (fun id =>
      match alGet elemIndexes id with
      | none => none
      | some j => elements.get? j)

/-- The effective status codes of the incoming edges of `nodeId`, in
edge order. -/
def incomingStatusCodes (nodeId : String) (elements : List Element)
    (nodeData : NodeDataMap) (elemIndexes : List (String × Nat)) :
    Option (List Nat) :=
  match resolveIncomingEdges nodeId elements nodeData elemIndexes with
  | none => none
  | some es => es.mapM getEdgeStatus

/-- `Math.max(...codes)` with the `-Infinity → 0` replacement of the
source (`Math.max()` of no arguments). -/
def maxOrZero : List Nat → Nat
  | [] => 0
  | c :: cs => cs.foldl max c

/-- `Math.min(...codes)` with the `+Infinity → 0` replacement of the
source. -/
def minOrZero : List Nat → Nat
  | [] => 0
  | c :: cs => cs.foldl min c

/-- The new status string `updateNodeStatus` computes for a node of type
`ty` with current status `currentStatus` and incoming effective codes
`codes`. -/
def newStatusFor (ty : NodeType) (currentStatus : String) (codes : List Nat) :
    Option String :=
  match ty with
  | .course =>
    let m := maxOrZero codes
    some (if m = 0 then
        (if currentStatus = "completed" || currentStatus = "enrolled" then
          currentStatus
        else "ready")
      else if m = 1 then "under-one-away"
      else if m = 2 then "one-away"
      else "over-one-away")
  | .and => COURSE_STATUSES.get? (maxOrZero codes)
  | .or => COURSE_STATUSES.get? (minOrZero codes)

/-- Model of `updateNodeStatus(nodeId, elements, nodeData, elemIndexes)`. -/
def updateNodeStatus (nodeId : String) (elements : List Element)
    (nodeData : NodeDataMap) (elemIndexes : List (String × Nat)) :
    Option (List Element) :=
  match alGet elemIndexes nodeId with
  | none => none
  | some i =>
    match elements.get? i with
    | some (.node _ ty _ dat) =>
      match incomingStatusCodes nodeId elements nodeData elemIndexes with
      | none => none
      | some codes =>
        match newStatusFor ty dat.nodeStatus codes with
        | none => none
        | some newStatus =>
          setNodeStatus nodeId newStatus elements nodeData elemIndexes
    | _ => none

/-- Model of `updateAllNodes(elements, nodeData, elemIndexes)`: one
`updateNodeStatus` call per index below `nodeData.size`, reading the id
from the original `elements` array while threading the updated copy. -/
def updateAllNodes (elements : List Element) (nodeData : NodeDataMap)
    (elemIndexes : List (String × Nat)) : Option (List Element) :=
  (List.range nodeData.length).foldlM
    (fun acc i =>
      match elements.get? i with
      | none => none
      | some el => updateNodeStatus el.elemId acc nodeData elemIndexes)
    elements

/-! ## Predicates used by the claim statements -/

/-- Full-string match of `COURSE_REGEX`, formalizing "a course id matching
the course-id pattern" (§3 of the specification describes the whole id by
the pattern). -/
def matchesCourseId (s : String) : Bool :=
  match matchCRSAt s.data with
  | some (_, rest) => rest.isEmpty
  | none => false

/-- Frame relation of `updateNodeStatus` for `nodeId`: an element may only
change by rewriting the `nodeStatus` of the node `nodeId` itself, or the
`className` of an edge whose source is `nodeId`; everything else (and
every other field) is untouched. -/
def FrameOk (nodeId : String) (old new : Element) : Prop :=
  new = old ∨
  (∃ ty pos dat s, old = .node nodeId ty pos dat ∧
    new = .node nodeId ty pos { dat with nodeStatus := s }) ∨
  (∃ eid t cls lbl s, old = .edge eid nodeId t cls lbl ∧
    new = .edge eid nodeId t s lbl)

/-- Directed-edge relation of an element list. -/
def EdgeRel (elements : List Element) (u v : String) : Prop :=
  ∃ id cls lbl, Element.edge id u v cls lbl ∈ elements

/-- Paths of a given length along `EdgeRel`. -/
inductive PathLen (elements : List Element) : String → String → Nat → Prop
  | refl (u : String) : PathLen elements u u 0
  | cons {u v w : String} {k : Nat} :
      EdgeRel elements u v → PathLen elements v w k →
      PathLen elements u w (k + 1)

/-- Acyclicity of the edge relation: no non-trivial path returns to its
start. -/
def Acyclic (elements : List Element) : Prop :=
  ∀ u k, ¬ PathLen elements u u (k + 1)

/-- Adjacency as recorded inside a metadata map. -/
def MapOut (m : NodeDataMap) (x y : String) : Prop :=
  ∃ rec, alGet m x = some rec ∧ y ∈ rec.outgoingNodes

/-- Paths of a given length along `MapOut`. -/
inductive MPath (m : NodeDataMap) : String → String → Nat → Prop
  | refl (u : String) : MPath m u u 0
  | cons {u v w : String} {k : Nat} :
      MapOut m u v → MPath m v w k → MPath m u w (k + 1)

/-! ## Concrete inputs used by counterexamples and witnesses -/

/-- Course whose only prerequisite clause is the double-either clause of
the specification's test scenario, with neither alternative in the
record set. -/
def exMathCourses : List CourseData :=
  [{ id := "MATH 125", prerequisite := "Either MATH 124 or MATH 134" }]

/-- Course that (degenerately) lists itself as its prerequisite. -/
def exSelfCourses : List CourseData :=
  [{ id := "A 101", prerequisite := "A 101" }]

/-- Course with a deferred clause matching neither either-pattern. -/
def exUnparsedCourses : List CourseData :=
  [{ id := "A 101", prerequisite := "B 102 B 103" }]

/-- An `and` gate with three incoming edges of effective codes 0, 1, 2. -/
def exAndElems : List Element :=
  [Element.node "X 100" .course ZERO_POSITION ⟨none, "completed", false⟩,
   Element.node "Y 100" .course ZERO_POSITION ⟨none, "enrolled", false⟩,
   Element.node "Z 100" .course ZERO_POSITION ⟨none, "ready", false⟩,
   Element.node "AND-9" .and ZERO_POSITION ⟨none, "completed", false⟩,
   Element.edge "X 100 -> AND-9" "X 100" "AND-9" "completed" none,
   Element.edge "Y 100 -> AND-9" "Y 100" "AND-9" "enrolled" none,
   Element.edge "Z 100 -> AND-9" "Z 100" "AND-9" "ready" none]

def exAndData : NodeDataMap := (newNodeData 10 exAndElems).getD []

def exAndIdx : List (String × Nat) := newElemIndexes exAndElems

/-- An `or` gate with three incoming edges of effective codes 0, 1, 2. -/
def exOrElems : List Element :=
  [Element.node "X 100" .course ZERO_POSITION ⟨none, "completed", false⟩,
   Element.node "Y 100" .course ZERO_POSITION ⟨none, "enrolled", false⟩,
   Element.node "Z 100" .course ZERO_POSITION ⟨none, "ready", false⟩,
   Element.node "OR-9" .or ZERO_POSITION ⟨none, "completed", false⟩,
   Element.edge "X 100 -> OR-9" "X 100" "OR-9" "completed" none,
   Element.edge "Y 100 -> OR-9" "Y 100" "OR-9" "enrolled" none,
   Element.edge "Z 100 -> OR-9" "Z 100" "OR-9" "ready" none]

def exOrData : NodeDataMap := (newNodeData 10 exOrElems).getD []

def exOrIdx : List (String × Nat) := newElemIndexes exOrElems

/-- Two-node, one-edge acyclic graph. -/
def exChainElems : List Element :=
  [Element.node "A 101" .course ZERO_POSITION ⟨none, "completed", false⟩,
   Element.node "B 102" .course ZERO_POSITION ⟨none, "over-one-away", false⟩,
   Element.edge "A 101 -> B 102" "A 101" "B 102" "completed" none]

def exChainData : NodeDataMap := (newNodeData 10 exChainElems).getD []

def exChainIdx : List (String × Nat) := newElemIndexes exChainElems

/-- A single enrolled course node with no edges. -/
def exEnrolledElems : List Element :=
  [Element.node "E 101" .course ZERO_POSITION ⟨none, "enrolled", false⟩]

def exEnrolledData : NodeDataMap := (newNodeData 10 exEnrolledElems).getD []

def exEnrolledIdx : List (String × Nat) := newElemIndexes exEnrolledElems

/-- Parser state of the triple-either scenario: the owner `CSE 332` and
the alternatives `CSE 311` and `CSE 321` are present, `CSE 331` is not. -/
def exCseState : GenState :=
  { elements :=
      [newCourseNode { id := "CSE 332", prerequisite := "CSE 311, CSE 321, or CSE 331" },
       newCourseNode { id := "CSE 311", prerequisite := "" },
       newCourseNode { id := "CSE 321", prerequisite := "" }]
    elementIds := ["CSE 332", "CSE 311", "CSE 321"]
    nextId := 0 }

/-- The deferred triple-either clause of the scenario. -/
def exCseSection : String := "CSE 311, CSE 321, or CSE 331"

/-- Consistency of an element list with a metadata map and an index map:
each position's id is indexed at that position, each metadata entry
describes a present node and lists ids of present incoming/outgoing
edges of that node, and every edge's class is a known status. This is the
state `updateAllNodes` needs and (as proved below) preserves. -/
def ElementsOk (elements : List Element) (nodeData : NodeDataMap)
    (elemIndexes : List (String × Nat)) : Prop :=
  (∀ j el, elements.get? j = some el → alGet elemIndexes el.elemId = some j) ∧
  (∀ x rec, alGet nodeData x = some rec →
    (∃ j ty pos dat, elements.get? j = some (Element.node x ty pos dat)) ∧
    (∀ eid ∈ rec.incomingEdges, ∃ j s cls lbl,
      elements.get? j = some (Element.edge eid s x cls lbl)) ∧
    (∀ eid ∈ rec.outgoingEdges, ∃ j t cls lbl,
      elements.get? j = some (Element.edge eid x t cls lbl))) ∧
  (∀ j eid s t cls lbl,
    elements.get? j = some (Element.edge eid s t cls lbl) →
    cls ∈ COURSE_STATUSES)

/-- How one `updateNodeStatus` call may rewrite one element: unchanged,
or a node with only its status rewritten to a known status, or an edge
with only its class rewritten to a known status. -/
def StatusSwapOk (old new : Element) : Prop :=
  new = old ∨
  (∃ id ty pos dat s, old = Element.node id ty pos dat ∧
    new = Element.node id ty pos { dat with nodeStatus := s } ∧
    s ∈ COURSE_STATUSES) ∨
  (∃ eid s t cls lbl cls2, old = Element.edge eid s t cls lbl ∧
    new = Element.edge eid s t cls2 lbl ∧ cls2 ∈ COURSE_STATUSES)

/-- Strings free of the dash character, which separates the halves of an
arrow id and starts the generated ids of logic-gate nodes. -/
def noDash (s : String) : Prop :=
  ∀ ch ∈ s.data, ch ≠ '-'

/-- Two elements that, when both are edges, neither connect the same
ordered pair of ids nor opposite pairs. -/
def EdgePairOk (e1 e2 : Element) : Prop :=
  e1.isEdge = true → e2.isEdge = true →
    ¬(e1.edgeSource = e2.edgeSource ∧ e1.edgeTarget = e2.edgeTarget) ∧
    ¬(e1.edgeSource = e2.edgeTarget ∧ e1.edgeTarget = e2.edgeSource)

/-- Invariant of the duplicate-checking edge insertion: every edge id has
the arrow shape and is recorded in `elementIds`, and no two edges
duplicate or reverse each other. -/
def EdgeInvariant (st : GenState) : Prop :=
  (∀ e ∈ st.elements, e.isEdge = true →
    e.elemId = edgeArrowId e.edgeSource e.edgeTarget ∧
    idsHas st.elementIds e.elemId = true) ∧
  st.elements.Pairwise EdgePairOk

/-- No edge of the list is a self-loop. -/
def NoSelfLoop (elements : List Element) : Prop :=
  ∀ e ∈ elements, e.isEdge = true → e.edgeSource ≠ e.edgeTarget

/-- One metadata map evolves from another by raising depths: the two have
the same keys, and each record keeps every field except `depth`, which
may only grow. -/
def DepthLE (m m' : NodeDataMap) : Prop :=
  (∀ k, alGet m k = none ↔ alGet m' k = none) ∧
  ∀ k rec, alGet m k = some rec → ∃ rec', alGet m' k = some rec' ∧
    rec.depth ≤ rec'.depth ∧
    rec'.incomingNodes = rec.incomingNodes ∧
    rec'.incomingEdges = rec.incomingEdges ∧
    rec'.outgoingEdges = rec.outgoingEdges ∧
    rec'.outgoingNodes = rec.outgoingNodes ∧
    rec'.connectedEdges = rec.connectedEdges ∧
    rec'.connectedNodes = rec.connectedNodes

/-- The adjacency recorded in a metadata map agrees with the element
list: each record's `outgoingNodes` are the targets of the node's
outgoing edges. -/
def AdjOk (elements : List Element) (m : NodeDataMap) : Prop :=
  ∀ k rec, alGet m k = some rec →
    rec.outgoingNodes = (outgoingEdgesOf k elements).map Element.edgeTarget

/-- A path of length `L` from some root (a node element with no incoming
edges) to `x`. -/
def RootPath (elements : List Element) (x : String) (L : Nat) : Prop :=
  ∃ r, (r ∈ (nodesOf elements).map Element.elemId ∧
    incomingEdgesOf r elements = []) ∧ PathLen elements r x L

/-- Every recorded depth is either still the initial `0` or the length of
an actual root path to its node. -/
def ValidDepths (elements : List Element) (m : NodeDataMap) : Prop :=
  ∀ k rec, alGet m k = some rec →
    rec.depth = 0 ∨ RootPath elements k rec.depth

/-! ## Helper lemmas about the association maps and the edge-reclass loop -/

theorem alGet_mem {α : Type} {m : List (String × α)} {k : String} {v : α}
    (h : alGet m k = some v) : (k, v) ∈ m := by
  unfold alGet at h
  rcases Option.map_eq_some'.mp h with ⟨p, hp, hv⟩
  have hk := List.find?_some hp
  have hmem := List.mem_of_find?_eq_some hp
  rcases p with ⟨a, b⟩
  simp only [decide_eq_true_eq] at hk
  simp only at hv
  rw [← hk, ← hv]
  exact hmem

theorem reclassEdge_eq_some {ns : String} {idx : List (String × Nat)}
    {els : List Element} {eid : String} {els1 : List Element}
    (h : reclassEdge ns idx els eid = some els1) :
    ∃ j eid2 s t cls lbl, alGet idx eid = some j ∧
      els.get? j = some (Element.edge eid2 s t cls lbl) ∧
      els1 = els.set j (Element.edge eid2 s t ns lbl) := by
  unfold reclassEdge at h
  split at h
  · exact absurd h (by simp)
  · rename_i j hj
    split at h
    · rename_i eid2 s t cls lbl hel
      exact ⟨j, eid2, s, t, cls, lbl, hj, hel, (Option.some.injEq _ _ ▸ h).symm⟩
    · exact absurd h (by simp)

theorem reclassFold_length (ns : String) (idx : List (String × Nat)) :
    ∀ (ids : List String) (els out : List Element),
      List.foldlM (reclassEdge ns idx) els ids = some out →
      out.length = els.length := by
  intro ids
  induction ids with
  | nil =>
    intro els out h
    simp only [List.foldlM_nil] at h
    cases h
    rfl
  | cons eid ids ih =>
    intro els out h
    rw [List.foldlM_cons] at h
    rcases Option.bind_eq_some.mp h with ⟨els1, h1, h2⟩
    rcases reclassEdge_eq_some h1 with ⟨j, eid2, s, t, cls, lbl, _, _, hset⟩
    rw [ih els1 out h2, hset, List.length_set]

theorem reclassFold_frame (ns : String) (idx : List (String × Nat)) :
    ∀ (ids : List String) (els out : List Element),
      List.foldlM (reclassEdge ns idx) els ids = some out →
      ∀ j el, els.get? j = some el →
        ∃ el', out.get? j = some el' ∧
          (el' = el ∨ ∃ eid s t cls lbl,
            el = Element.edge eid s t cls lbl ∧
            el' = Element.edge eid s t ns lbl) := by
  intro ids
  induction ids with
  | nil =>
    intro els out h j el hel
    simp only [List.foldlM_nil] at h
    cases h
    exact ⟨el, hel, Or.inl rfl⟩
  | cons eid ids ih =>
    intro els out h j el hel
    rw [List.foldlM_cons] at h
    rcases Option.bind_eq_some.mp h with ⟨els1, h1, h2⟩
    rcases reclassEdge_eq_some h1 with ⟨j', eid2, s, t, cls, lbl, _, hel', hset⟩
    subst hset
    by_cases hjj : j' = j
    · subst hjj
      have hget : (els.set j' (Element.edge eid2 s t ns lbl)).get? j' =
          some (Element.edge eid2 s t ns lbl) := by
        rw [List.get?_set_eq, hel]
        rfl
      have hel2 : el = Element.edge eid2 s t cls lbl := by
        rw [hel] at hel'
        exact Option.some.injEq _ _ ▸ hel'.symm ▸ rfl
      rcases ih _ _ h2 j' _ hget with ⟨el', hout, hcase⟩
      refine ⟨el', hout, Or.inr ?_⟩
      rcases hcase with hsame | ⟨a, b, c, d, e, hh1, hh2⟩
      · exact ⟨eid2, s, t, cls, lbl, hel2, hsame⟩
      · cases hh1
        exact ⟨eid2, s, t, cls, lbl, hel2, hh2⟩
    · have hget : (els.set j' (Element.edge eid2 s t ns lbl)).get? j = some el := by
        rw [List.get?_set_ne _ _ hjj]
        exact hel
      exact ih _ _ h2 j _ hget

theorem reclassFold_untouched (ns : String) (idx : List (String × Nat)) :
    ∀ (ids : List String) (els out : List Element),
      List.foldlM (reclassEdge ns idx) els ids = some out →
      ∀ j, (∀ eid ∈ ids, alGet idx eid ≠ some j) →
        out.get? j = els.get? j := by
  intro ids
  induction ids with
  | nil =>
    intro els out h j _
    simp only [List.foldlM_nil] at h
    cases h
    rfl
  | cons eid ids ih =>
    intro els out h j hno
    rw [List.foldlM_cons] at h
    rcases Option.bind_eq_some.mp h with ⟨els1, h1, h2⟩
    rcases reclassEdge_eq_some h1 with ⟨j', eid2, s, t, cls, lbl, hj, _, hset⟩
    subst hset
    have hne : j' ≠ j := fun hcontra =>
      hno eid (List.mem_cons_self _ _) (hcontra ▸ hj)
    rw [ih _ _ h2 j (fun e he => hno e (List.mem_cons_of_mem _ he)),
      List.get?_set_ne _ _ hne]

theorem setNodeStatus_eq_some {nodeId ns : String} {elements : List Element}
    {nodeData : NodeDataMap} {elemIndexes : List (String × Nat)}
    {out : List Element}
    (h : setNodeStatus nodeId ns elements nodeData elemIndexes = some out) :
    ∃ i id ty pos dat rec, alGet elemIndexes nodeId = some i ∧
      elements.get? i = some (Element.node id ty pos dat) ∧
      alGet nodeData nodeId = some rec ∧
      List.foldlM (reclassEdge ns elemIndexes)
        (elements.set i (Element.node id ty pos { dat with nodeStatus := ns }))
        rec.outgoingEdges = some out := by
  unfold setNodeStatus at h
  split at h
  · exact absurd h (by simp)
  · rename_i i hi
    split at h
    · rename_i id ty pos dat hel
      split at h
      · exact absurd h (by simp)
      · rename_i rec hrec
        exact ⟨i, id, ty, pos, dat, rec, hi, hel, hrec, h⟩
    · exact absurd h (by simp)

theorem updateNodeStatus_eq_some {nodeId : String} {elements : List Element}
    {nodeData : NodeDataMap} {elemIndexes : List (String × Nat)}
    {out : List Element}
    (h : updateNodeStatus nodeId elements nodeData elemIndexes = some out) :
    ∃ i id ty pos dat codes ns, alGet elemIndexes nodeId = some i ∧
      elements.get? i = some (Element.node id ty pos dat) ∧
      incomingStatusCodes nodeId elements nodeData elemIndexes = some codes ∧
      newStatusFor ty dat.nodeStatus codes = some ns ∧
      setNodeStatus nodeId ns elements nodeData elemIndexes = some out := by
  unfold updateNodeStatus at h
  split at h
  · exact absurd h (by simp)
  · rename_i i hi
    split at h
    · rename_i id ty pos dat hel
      split at h
      · exact absurd h (by simp)
      · rename_i codes hcodes
        split at h
        · exact absurd h (by simp)
        · rename_i ns hns
          exact ⟨i, id, ty, pos, dat, codes, ns, hi, hel, hcodes, hns, h⟩
    · exact absurd h (by simp)

/-- Successful `updateNodeStatus` writes, at the index of `nodeId`, the
node it found there with exactly the status `newStatusFor` computes. -/
theorem updateNodeStatus_node_result {nodeId : String} {elements : List Element}
    {nodeData : NodeDataMap} {elemIndexes : List (String × Nat)}
    {out : List Element} {i : Nat} {id : String} {ty : NodeType}
    {pos : Int × Int} {dat : NodeDataFields} {codes : List Nat}
    (hidx : alGet elemIndexes nodeId = some i)
    (helem : elements.get? i = some (Element.node id ty pos dat))
    (hcodes : incomingStatusCodes nodeId elements nodeData elemIndexes = some codes)
    (hrun : updateNodeStatus nodeId elements nodeData elemIndexes = some out) :
    ∃ ns, newStatusFor ty dat.nodeStatus codes = some ns ∧
      out.get? i = some (Element.node id ty pos { dat with nodeStatus := ns }) := by
  rcases updateNodeStatus_eq_some hrun with
    ⟨i', id', ty', pos', dat', codes', ns, hi', hel', hcodes', hns, hset⟩
  rw [hidx] at hi'
  cases hi'
  rw [helem] at hel'
  injection hel' with hel'
  injection hel' with h1 h2 h3 h4
  subst h1; subst h2; subst h3; subst h4
  rw [hcodes] at hcodes'
  cases hcodes'
  refine ⟨ns, hns, ?_⟩
  rcases setNodeStatus_eq_some hset with
    ⟨i2, id2, ty2, pos2, dat2, rec, hi2, hel2, _, hfold⟩
  rw [hidx] at hi2
  cases hi2
  rw [helem] at hel2
  injection hel2 with hel2
  injection hel2 with g1 g2 g3 g4
  subst g1; subst g2; subst g3; subst g4
  have hset_i : (elements.set i (Element.node id ty pos { dat with nodeStatus := ns })).get? i =
      some (Element.node id ty pos { dat with nodeStatus := ns }) := by
    rw [List.get?_set_eq]
    rw [helem]
    rfl
  rcases reclassFold_frame _ _ _ _ _ hfold i _ hset_i with ⟨el', hout, hcase⟩
  rcases hcase with hsame | ⟨a, b, c, d, e, hcontra, _⟩
  · rw [hout, hsame]
  · exact absurd hcontra (by simp)

/-! ## Claim C1 -/

/-- C1, counterexample: for the `and` gate `AND-9` of `exAndElems`, whose
incoming edges have effective status codes exactly `[0, 1, 2]`,
`updateNodeStatus` sets the status `"ready"` (the status of code 2), not
`"one-away"` as the claim states (`one-away` has code 4). -/
theorem c1_and_gate_gets_ready_not_one_away :
    incomingStatusCodes "AND-9" exAndElems exAndData exAndIdx = some [0, 1, 2] ∧
    (updateNodeStatus "AND-9" exAndElems exAndData exAndIdx).map
      (fun l => l.get? 3) =
      some (some (Element.node "AND-9" NodeType.and ZERO_POSITION
        ⟨none, "ready", false⟩)) ∧
    COURSE_STATUS_CODES "one-away" = some 4 ∧
    "ready" ≠ "one-away" := by
  refine ⟨by decide, by decide, by decide, by decide⟩

/-- C1 (amended): for every `and` gate node whose incoming edges have
effective status codes exactly `[0, 1, 2]`, `updateNodeStatus` sets the
node's status to `ready` (the status with code 2); for every `or` gate
node with the same incoming effective codes, it sets the status to
`completed` (code 0). -/
theorem c1_gate_codes012_status {nodeId : String} {elements : List Element}
    {nodeData : NodeDataMap} {elemIndexes : List (String × Nat)}
    {out : List Element} {i : Nat} {id : String} {ty : NodeType}
    {pos : Int × Int} {dat : NodeDataFields}
    (hidx : alGet elemIndexes nodeId = some i)
    (helem : elements.get? i = some (Element.node id ty pos dat))
    (hcodes : incomingStatusCodes nodeId elements nodeData elemIndexes =
      some [0, 1, 2])
    (hrun : updateNodeStatus nodeId elements nodeData elemIndexes = some out) :
    (ty = NodeType.and →
      out.get? i = some (Element.node id NodeType.and pos
        { dat with nodeStatus := "ready" })) ∧
    (ty = NodeType.or →
      out.get? i = some (Element.node id NodeType.or pos
        { dat with nodeStatus := "completed" })) := by
  rcases updateNodeStatus_node_result hidx helem hcodes hrun with ⟨ns, hns, hout⟩
  constructor
  · intro hty
    subst hty
    have hr : newStatusFor NodeType.and dat.nodeStatus [0, 1, 2] = some "ready" := rfl
    rw [hr] at hns
    injection hns with hns
    rw [hns]
    exact hout
  · intro hty
    subst hty
    have hr : newStatusFor NodeType.or dat.nodeStatus [0, 1, 2] = some "completed" := rfl
    rw [hr] at hns
    injection hns with hns
    rw [hns]
    exact hout

/-- C1, witness: the amended theorem applied to the `or` gate `OR-9` of
`exOrElems`, whose incoming effective codes are `[0, 1, 2]`; its status
becomes `"completed"`. -/
theorem c1_gate_codes012_status_witness :
    (NodeType.or = NodeType.and →
      (exOrElems.set 3 (Element.node "OR-9" NodeType.or ZERO_POSITION
        ⟨none, "completed", false⟩)).get? 3 =
        some (Element.node "OR-9" NodeType.and ZERO_POSITION
          ⟨none, "ready", false⟩)) ∧
    (NodeType.or = NodeType.or →
      (exOrElems.set 3 (Element.node "OR-9" NodeType.or ZERO_POSITION
        ⟨none, "completed", false⟩)).get? 3 =
        some (Element.node "OR-9" NodeType.or ZERO_POSITION
          ⟨none, "completed", false⟩)) :=
  @c1_gate_codes012_status "OR-9" exOrElems exOrData exOrIdx
    (exOrElems.set 3 (Element.node "OR-9" NodeType.or ZERO_POSITION
      ⟨none, "completed", false⟩))
    3 "OR-9" NodeType.or ZERO_POSITION ⟨none, "completed", false⟩
    (by decide) (by decide) (by decide) (by decide)

/-! ## Claim C3 -/

/-- C3, counterexample: parsing `"Either MATH 124 or MATH 134"` for owner
`MATH 125` with neither alternative pre-existing and mode
`"aggressively"` yields zero new edges — not edges from both `MATH 124`
and `MATH 134` as the claim states — because `addEdges` only adds an
edge whose source is an already-known element id. -/
theorem c3_aggressive_yields_no_edges :
    generateInitialElements exMathCourses "aggressively" =
      some [newCourseNode
        { id := "MATH 125", prerequisite := "Either MATH 124 or MATH 134" }] ∧
    (generateInitialElements exMathCourses "aggressively").map
      (fun l => l.filter Element.isEdge) = some [] := by
  refine ⟨by decide, by decide⟩

/-- C3 (amended): parsing the clause `"Either MATH 124 or MATH 134"` for
owner `MATH 125` when neither `MATH 124` nor `MATH 134` is a pre-existing
node yields zero new edges under both `"conservative"` and
`"aggressively"` modes: the aggressive fallback passes the alternatives
through `addEdges`, which skips any source that is not a known node id. -/
theorem c3_unknown_alternatives_no_edges :
    generateInitialElements exMathCourses "conservative" =
      some [newCourseNode
        { id := "MATH 125", prerequisite := "Either MATH 124 or MATH 134" }] ∧
    generateInitialElements exMathCourses "aggressively" =
      some [newCourseNode
        { id := "MATH 125", prerequisite := "Either MATH 124 or MATH 134" }] := by
  refine ⟨by decide, by decide⟩

/-! ## Claim C6 -/

/-- C6 (confirmed): for every `course` node with zero incoming edges,
`updateNodeStatus` keeps status `enrolled` as `enrolled` and `completed`
as `completed`, and sets any other current status to `ready`. -/
theorem c6_course_no_incoming_status {nodeId : String} {elements : List Element}
    {nodeData : NodeDataMap} {elemIndexes : List (String × Nat)}
    {out : List Element} {i : Nat} {id : String}
    {pos : Int × Int} {dat : NodeDataFields} {rec : NodeDataRec}
    (hidx : alGet elemIndexes nodeId = some i)
    (helem : elements.get? i = some (Element.node id NodeType.course pos dat))
    (hrec : alGet nodeData nodeId = some rec)
    (hinc : rec.incomingEdges = [])
    (hrun : updateNodeStatus nodeId elements nodeData elemIndexes = some out) :
    out.get? i = some (Element.node id NodeType.course pos
      { dat with nodeStatus :=
          if dat.nodeStatus = "completed" || dat.nodeStatus = "enrolled" then
            dat.nodeStatus
          else "ready" }) := by
  have hcodes : incomingStatusCodes nodeId elements nodeData elemIndexes =
      some [] := by
    unfold incomingStatusCodes resolveIncomingEdges
    simp only [hrec, hinc]
    rfl
  rcases updateNodeStatus_node_result hidx helem hcodes hrun with ⟨ns, hns, hout⟩
  have hr : newStatusFor NodeType.course dat.nodeStatus [] =
      some (if dat.nodeStatus = "completed" || dat.nodeStatus = "enrolled" then
          dat.nodeStatus
        else "ready") := rfl
  rw [hr] at hns
  injection hns with hns
  rw [hns]
  exact hout

/-- C6, witness: the enrolled, prerequisite-free course `E 101` of
`exEnrolledElems` keeps status `"enrolled"` after `updateNodeStatus`. -/
theorem c6_course_no_incoming_status_witness :
    (exEnrolledElems.set 0 (Element.node "E 101" NodeType.course ZERO_POSITION
      ⟨none, "enrolled", false⟩)).get? 0 =
      some (Element.node "E 101" NodeType.course ZERO_POSITION
        ⟨none,
          if ("enrolled" : String) = "completed" || ("enrolled" : String) = "enrolled" then
            "enrolled"
          else "ready",
          false⟩) :=
  @c6_course_no_incoming_status "E 101" exEnrolledElems exEnrolledData
    exEnrolledIdx
    (exEnrolledElems.set 0 (Element.node "E 101" NodeType.course ZERO_POSITION
      ⟨none, "enrolled", false⟩))
    0 "E 101" ZERO_POSITION ⟨none, "enrolled", false⟩
    ⟨0, [], [], [], [], [], []⟩
    (by decide) (by decide) (by decide) (by decide) (by decide)

/-! ## Claim C7 -/

theorem drop_takeWhile_length (p : Char → Bool) :
    ∀ cs : List Char, cs.drop (cs.takeWhile p).length = cs.dropWhile p := by
  intro cs
  induction cs with
  | nil => rfl
  | cons c cs ih =>
    by_cases hc : p c
    · simp [List.takeWhile_cons, List.dropWhile_cons, hc, ih]
    · simp [List.takeWhile_cons, List.dropWhile_cons, hc]

theorem chompOneGroup_chars {cs g rest : List Char}
    (h : chompOneGroup cs = some (g, rest)) :
    (∀ c ∈ g, isUpperAmp c ∨ c = ' ') ∧ cs = g ++ rest := by
  unfold chompOneGroup at h
  rw [drop_takeWhile_length] at h
  rcases htake : cs.takeWhile isUpperAmp with _ | ⟨l0, ls⟩ <;> rw [htake] at h
  · exact absurd h (by simp)
  · rcases hdrop : cs.dropWhile isUpperAmp with _ | ⟨c0, rest0⟩ <;> rw [hdrop] at h
    · exact absurd h (by simp)
    · simp only [] at h
      by_cases hc0 : c0 = ' '
      · subst hc0
        rw [if_pos rfl] at h
        injection h with h
        injection h with hg hrest
        subst hg
        subst hrest
        constructor
        · intro c hcmem
          rcases List.mem_append.mp hcmem with hin | hin
          · exact Or.inl (List.mem_takeWhile_imp (htake ▸ hin))
          · exact Or.inr (List.mem_singleton.mp hin)
        · calc cs = cs.takeWhile isUpperAmp ++ cs.dropWhile isUpperAmp :=
                (List.takeWhile_append_dropWhile _ _).symm
            _ = (l0 :: ls) ++ (' ' :: rest0) := by rw [htake, hdrop]
            _ = ((l0 :: ls) ++ [' ']) ++ rest0 := by simp
      · rw [if_neg hc0] at h
        exact absurd h (by simp)

theorem chompGroups_chars :
    ∀ {fuel : Nat} {cs g rest : List Char},
      chompGroups fuel cs = some (g, rest) →
      (∀ c ∈ g, isUpperAmp c ∨ c = ' ') ∧ cs = g ++ rest := by
  intro fuel
  induction fuel with
  | zero => intro cs g rest h; exact absurd h (by simp [chompGroups])
  | succ f ih =>
    intro cs g rest h
    unfold chompGroups at h
    split at h
    · exact absurd h (by simp)
    · rename_i g1 rest1 h1
      rcases chompOneGroup_chars h1 with ⟨hone, hcs⟩
      split at h
      · rename_i g2 rest2 h2
        rcases ih h2 with ⟨hrec, hrest1⟩
        injection h with h
        injection h with hg hrest
        subst hg
        subst hrest
        constructor
        · intro c hcmem
          rcases List.mem_append.mp hcmem with hin | hin
          · exact hone c hin
          · exact hrec c hin
        · rw [hcs, hrest1, List.append_assoc]
      · injection h with h
        injection h with hg hrest
        subst hg
        subst hrest
        exact ⟨hone, hcs⟩

theorem matchCRSAt_chars {cs m rest : List Char}
    (h : matchCRSAt cs = some (m, rest)) :
    (∀ c ∈ m, isUpperAmp c ∨ c = ' ' ∨ c.isDigit) ∧ cs = m ++ rest := by
  unfold matchCRSAt at h
  rcases hg : chompGroups (cs.length + 1) cs with _ | ⟨g, rest1⟩ <;> rw [hg] at h
  · exact absurd h (by simp)
  · rcases chompGroups_chars hg with ⟨hgc, hcs⟩
    rcases rest1 with _ | ⟨d1, rest1⟩
    · exact absurd h (by simp)
    · rcases rest1 with _ | ⟨d2, rest1⟩
      · exact absurd h (by simp)
      · rcases rest1 with _ | ⟨d3, rest2⟩
        · exact absurd h (by simp)
        · simp only [] at h
          by_cases hdig : (d1.isDigit && d2.isDigit && d3.isDigit) = true
          · rw [if_pos hdig] at h
            injection h with h
            injection h with hm hrest
            subst hm
            subst hrest
            simp only [Bool.and_eq_true] at hdig
            constructor
            · intro c hcmem
              rcases List.mem_append.mp hcmem with hin | hin
              · rcases hgc c hin with h' | h'
                · exact Or.inl h'
                · exact Or.inr (Or.inl h')
              · fin_cases hin
                · exact Or.inr (Or.inr hdig.1.1)
                · exact Or.inr (Or.inr hdig.1.2)
                · exact Or.inr (Or.inr hdig.2)
            · rw [hcs]
              simp
          · rw [if_neg hdig] at h
            exact absurd h (by simp)

/-- Course ids (full matches of `COURSE_REGEX`) never contain `'-'`; the
`" -> "` separator therefore cannot occur inside them. -/
theorem matchesCourseId_no_dash {s : String} (h : matchesCourseId s = true) :
    ∀ c ∈ s.data, c ≠ '-' := by
  unfold matchesCourseId at h
  split at h
  · rename_i m rest hm
    have hrest : rest = [] := by
      cases rest
      · rfl
      · exact absurd h (by simp [List.isEmpty])
    subst hrest
    rcases matchCRSAt_chars hm with ⟨hchars, hdata⟩
    rw [List.append_nil] at hdata
    intro c hcmem hdash
    subst hdash
    rcases hchars '-' (hdata ▸ hcmem) with h' | h' | h' <;> simp_all [isUpperAmp]
  · exact absurd h (by simp)

/-- Splitting on the `" -> "` separator is unambiguous for dash-free
halves on the left. -/
theorem sep_append_inj :
    ∀ (a c b d : List Char),
      (∀ x ∈ a, x ≠ '-') → (∀ x ∈ c, x ≠ '-') →
      a ++ (' ' :: '-' :: '>' :: ' ' :: b) = c ++ (' ' :: '-' :: '>' :: ' ' :: d) →
      a = c ∧ b = d := by
  intro a
  induction a with
  | nil =>
    intro c b d _ hc h
    cases c with
    | nil =>
      simp only [List.nil_append, List.cons.injEq, true_and] at h
      exact ⟨rfl, by simp [h]⟩
    | cons ch cs' =>
      simp only [List.nil_append, List.cons_append, List.cons.injEq] at h
      rcases h with ⟨hsp, h⟩
      cases cs' with
      | nil =>
        simp only [List.nil_append, List.cons.injEq] at h
        exact absurd h.1 (by decide)
      | cons ch2 cs'' =>
        simp only [List.cons_append, List.cons.injEq] at h
        exact absurd h.1.symm (hc ch2 (by simp))
  | cons ch as ih =>
    intro c b d ha hc h
    cases c with
    | nil =>
      simp only [List.cons_append, List.nil_append, List.cons.injEq] at h
      rcases h with ⟨hsp, h⟩
      cases as with
      | nil =>
        simp only [List.nil_append, List.cons.injEq] at h
        exact absurd h.1.symm (by decide)
      | cons ch2 as' =>
        simp only [List.cons_append, List.cons.injEq] at h
        exact absurd h.1 (ha ch2 (by simp))
    | cons ch2 cs' =>
      simp only [List.cons_append, List.cons.injEq] at h
      rcases h with ⟨hch, h⟩
      rcases ih cs' b d (fun x hx => ha x (by simp [hx])) (fun x hx => hc x (by simp [hx])) h with
        ⟨h1, h2⟩
      exact ⟨by rw [hch, h1], h2⟩

/-- C7 (confirmed): for all pairs of course ids matching the course-id
pattern, `edgeArrowId` is deterministic and injective as a function of
the ordered pair: `edgeArrowId a b = edgeArrowId c d` holds exactly when
`a = c` and `b = d`. -/
theorem c7_edgeArrowId_injective (a b c d : String)
    (ha : matchesCourseId a = true) (_hb : matchesCourseId b = true)
    (hc : matchesCourseId c = true) (_hd : matchesCourseId d = true) :
    edgeArrowId a b = edgeArrowId c d ↔ (a = c ∧ b = d) := by
  constructor
  · intro h
    have hdata : a.data ++ (' ' :: '-' :: '>' :: ' ' :: b.data) =
        c.data ++ (' ' :: '-' :: '>' :: ' ' :: d.data) := by
      have := congrArg String.data h
      simpa [edgeArrowId, String.data_append] using this
    rcases sep_append_inj a.data c.data b.data d.data
      (matchesCourseId_no_dash ha) (matchesCourseId_no_dash hc) hdata with ⟨h1, h2⟩
    exact ⟨String.ext h1, String.ext h2⟩
  · rintro ⟨rfl, rfl⟩
    rfl

/-- C7, witness: the characterization applied to the concrete course ids
`MATH 124` and `MATH 125`. -/
theorem c7_edgeArrowId_injective_witness :
    edgeArrowId "MATH 124" "MATH 125" = edgeArrowId "MATH 124" "MATH 125" ↔
      (("MATH 124" : String) = "MATH 124" ∧ ("MATH 125" : String) = "MATH 125") :=
  c7_edgeArrowId_injective "MATH 124" "MATH 125" "MATH 124" "MATH 125"
    (by decide) (by decide) (by decide) (by decide)

/-! ## Claim C9 -/

/-- C9 (confirmed): for every node id, a successful `updateNodeStatus`
changes only the `nodeStatus` of that node and the `className` of that
node's outgoing edges; every other node's status, every edge not
outgoing from that node, and every other field of every element is left
unchanged (`FrameOk`), and the element list keeps its length. -/
theorem c9_updateNodeStatus_frame {nodeId : String} {elements : List Element}
    {nodeData : NodeDataMap} {elemIndexes : List (String × Nat)}
    {out : List Element} {i : Nat} {ty : NodeType} {pos : Int × Int}
    {dat : NodeDataFields} {rec : NodeDataRec}
    (hidx : alGet elemIndexes nodeId = some i)
    (helem : elements.get? i = some (Element.node nodeId ty pos dat))
    (hrec : alGet nodeData nodeId = some rec)
    (houtgoing : ∀ eid ∈ rec.outgoingEdges, ∃ j t cls lbl,
      alGet elemIndexes eid = some j ∧
      elements.get? j = some (Element.edge eid nodeId t cls lbl))
    (hrun : updateNodeStatus nodeId elements nodeData elemIndexes = some out) :
    out.length = elements.length ∧
    ∀ j el el', elements.get? j = some el → out.get? j = some el' →
      FrameOk nodeId el el' := by
  rcases updateNodeStatus_eq_some hrun with
    ⟨i', id', ty', pos', dat', codes, ns, hi', hel', _, _, hset⟩
  rw [hidx] at hi'
  cases hi'
  rw [helem] at hel'
  injection hel' with hel'
  injection hel' with h1 h2 h3 h4
  subst h1; subst h2; subst h3; subst h4
  rcases setNodeStatus_eq_some hset with
    ⟨i2, id2, ty2, pos2, dat2, rec2, hi2, hel2, hrec2, hfold⟩
  rw [hidx] at hi2
  cases hi2
  rw [helem] at hel2
  injection hel2 with hel2
  injection hel2 with g1 g2 g3 g4
  subst g1; subst g2; subst g3; subst g4
  rw [hrec] at hrec2
  cases hrec2
  have hlen : out.length = elements.length := by
    rw [reclassFold_length _ _ _ _ _ hfold, List.length_set]
  refine ⟨hlen, ?_⟩
  intro j el el' helj houtj
  have hnotme : ∀ eid ∈ rec.outgoingEdges, alGet elemIndexes eid ≠ some i := by
    intro eid hmem hcontra
    rcases houtgoing eid hmem with ⟨j', t, cls, lbl, hj', hedge⟩
    rw [hcontra] at hj'
    injection hj' with hj'
    subst hj'
    rw [helem] at hedge
    exact absurd hedge (by simp)
  by_cases hji : j = i
  · subst hji
    have huntouched := reclassFold_untouched _ _ _ _ _ hfold j hnotme
    have hset_j : (elements.set j (Element.node nodeId ty pos
        { dat with nodeStatus := ns })).get? j =
        some (Element.node nodeId ty pos { dat with nodeStatus := ns }) := by
      rw [List.get?_set_eq, helem]
      rfl
    rw [huntouched, hset_j] at houtj
    injection houtj with houtj
    rw [helem] at helj
    injection helj with helj
    rw [← houtj, ← helj]
    exact Or.inr (Or.inl ⟨ty, pos, dat, ns, rfl, rfl⟩)
  · have hset_j : (elements.set i (Element.node nodeId ty pos
        { dat with nodeStatus := ns })).get? j = some el := by
      rw [List.get?_set_ne _ _ (fun h => hji h.symm)]
      exact helj
    by_cases htouch : ∃ eid ∈ rec.outgoingEdges, alGet elemIndexes eid = some j
    · rcases htouch with ⟨eid, hmem, hjeq⟩
      rcases houtgoing eid hmem with ⟨j', t, cls, lbl, hj', hedge⟩
      rw [hjeq] at hj'
      injection hj' with hj'
      subst hj'
      rw [helj] at hedge
      injection hedge with hedge
      rcases reclassFold_frame _ _ _ _ _ hfold j el hset_j with ⟨el2, hout2, hcase⟩
      rw [houtj] at hout2
      injection hout2 with hout2
      subst hout2
      rcases hcase with hsame | ⟨a, b, c, d, e, hh1, hh2⟩
      · exact Or.inl hsame
      · rw [hedge] at hh1
        injection hh1 with e1 e2 e3 e4 e5
        subst e1; subst e2; subst e3; subst e4; subst e5
        exact Or.inr (Or.inr ⟨eid, t, cls, lbl, ns, hedge, hh2⟩)
    · have huntouched := reclassFold_untouched _ _ _ _ _ hfold j
        (fun eid hmem hcontra => htouch ⟨eid, hmem, hcontra⟩)
      rw [huntouched, hset_j] at houtj
      injection houtj with houtj
      exact Or.inl houtj.symm

/-- C9, witness: the frame property applied to node `A 101` of the
two-node chain `exChainElems`, whose single outgoing edge is
`A 101 -> B 102`. -/
theorem c9_updateNodeStatus_frame_witness :
    exChainElems.length = exChainElems.length ∧
    ∀ j el el', exChainElems.get? j = some el →
      exChainElems.get? j = some el' → FrameOk "A 101" el el' :=
  @c9_updateNodeStatus_frame "A 101" exChainElems exChainData exChainIdx
    exChainElems 0 NodeType.course ZERO_POSITION ⟨none, "completed", false⟩
    ⟨0, [], [], ["A 101 -> B 102"], ["B 102"], ["A 101 -> B 102"], ["B 102"]⟩
    (by decide) (by decide) (by decide)
    (by
      intro eid hmem
      fin_cases hmem
      exact ⟨2, "B 102", "completed", none, by decide, by decide⟩)
    (by decide)

/-! ## Claim C10 -/

theorem idxFrom_lt {s : String} :
    ∀ {l : List String} {n c : Nat}, idxFrom s l n = some c → c < n + l.length := by
  intro l
  induction l with
  | nil => intro n c h; exact absurd h (by simp [idxFrom])
  | cons x xs ih =>
    intro n c h
    unfold idxFrom at h
    split at h
    · injection h with h
      subst h
      simp
    · have := ih h
      simp only [List.length_cons]
      omega

theorem statusCode_lt_six {s : String} {c : Nat}
    (h : COURSE_STATUS_CODES s = some c) : c < 6 := by
  have := idxFrom_lt h
  simpa using this

theorem getEdgeStatus_lt_six {el : Element} {c : Nat}
    (h : getEdgeStatus el = some c) : c < 6 := by
  unfold getEdgeStatus at h
  split at h
  · rename_i eid s t cls lbl
    rcases hcode : COURSE_STATUS_CODES cls with _ | code <;> rw [hcode] at h
    · exact absurd h (by simp)
    · have hc6 := statusCode_lt_six hcode
      simp only [] at h
      split at h
      · injection h with h
        subst h
        decide
      · injection h with h
        subst h
        exact hc6
  · exact absurd h (by simp)

theorem foldl_max_lt_six : ∀ (cs : List Nat) (c : Nat), c < 6 →
    (∀ x ∈ cs, x < 6) → cs.foldl max c < 6 := by
  intro cs
  induction cs with
  | nil => intro c hc _; exact hc
  | cons c2 cs ih =>
    intro c hc hall
    rw [List.foldl_cons]
    exact ih (max c c2) (Nat.max_lt.mpr ⟨hc, hall c2 (by simp)⟩)
      (fun x hx => hall x (by simp [hx]))

theorem foldl_min_le : ∀ (cs : List Nat) (c : Nat), cs.foldl min c ≤ c := by
  intro cs
  induction cs with
  | nil => intro c; exact Nat.le_refl c
  | cons c2 cs ih =>
    intro c
    rw [List.foldl_cons]
    exact Nat.le_trans (ih (min c c2)) (Nat.min_le_left _ _)

theorem maxOrZero_lt_six {codes : List Nat}
    (h : ∀ c ∈ codes, c < 6) : maxOrZero codes < 6 := by
  cases codes with
  | nil => decide
  | cons c cs =>
    exact foldl_max_lt_six cs c (h c (by simp)) (fun x hx => h x (by simp [hx]))

theorem minOrZero_lt_six {codes : List Nat}
    (h : ∀ c ∈ codes, c < 6) : minOrZero codes < 6 := by
  cases codes with
  | nil => decide
  | cons c cs =>
    exact Nat.lt_of_le_of_lt (foldl_min_le cs c) (h c (by simp))

/-- Every status `newStatusFor` returns is one of `COURSE_STATUSES`. -/
theorem newStatusFor_mem {ty : NodeType} {cur : String} {codes : List Nat}
    {ns : String} (h : newStatusFor ty cur codes = some ns) :
    ns ∈ COURSE_STATUSES := by
  unfold newStatusFor at h
  cases ty with
  | course =>
    injection h with h
    subst h
    by_cases h0 : maxOrZero codes = 0
    · rw [if_pos h0]
      by_cases hcur : cur = "completed" || cur = "enrolled"
      · rw [if_pos hcur]
        rcases Bool.or_eq_true _ _ ▸ hcur with h' | h' <;>
          rw [decide_eq_true_eq] at h' <;> subst h' <;> decide
      · rw [if_neg hcur]
        decide
    · rw [if_neg h0]
      by_cases h1 : maxOrZero codes = 1
      · rw [if_pos h1]; decide
      · rw [if_neg h1]
        by_cases h2 : maxOrZero codes = 2
        · rw [if_pos h2]; decide
        · rw [if_neg h2]; decide
  | and => exact List.get?_mem h
  | or => exact List.get?_mem h

/-- Generic shape of a successful `updateNodeStatus`: the list keeps its
length and every element is rewritten only per `StatusSwapOk` (statuses
and classes move within `COURSE_STATUSES`; ids, kinds, endpoints, and
all other fields are preserved). -/
theorem updateNodeStatus_skeleton {x : String} {elements : List Element}
    {nodeData : NodeDataMap} {elemIndexes : List (String × Nat)}
    {out : List Element}
    (hrun : updateNodeStatus x elements nodeData elemIndexes = some out) :
    out.length = elements.length ∧
    ∀ j el, elements.get? j = some el →
      ∃ el', out.get? j = some el' ∧ StatusSwapOk el el' := by
  rcases updateNodeStatus_eq_some hrun with
    ⟨i, id, ty, pos, dat, codes, ns, hi, hel, _, hns, hset⟩
  have hnsmem : ns ∈ COURSE_STATUSES := newStatusFor_mem hns
  rcases setNodeStatus_eq_some hset with
    ⟨i2, id2, ty2, pos2, dat2, rec2, hi2, hel2, _, hfold⟩
  rw [hi] at hi2
  injection hi2 with hi2
  subst hi2
  rw [hel] at hel2
  injection hel2 with hel2
  injection hel2 with g1 g2 g3 g4
  subst g1; subst g2; subst g3; subst g4
  constructor
  · rw [reclassFold_length _ _ _ _ _ hfold, List.length_set]
  · intro j el helj
    by_cases hji : j = i
    · subst hji
      rw [helj] at hel
      injection hel with hel
      subst hel
      have hset_j : (elements.set j (Element.node id ty pos
          { dat with nodeStatus := ns })).get? j =
          some (Element.node id ty pos { dat with nodeStatus := ns }) := by
        rw [List.get?_set_eq, helj]
        rfl
      rcases reclassFold_frame _ _ _ _ _ hfold j _ hset_j with ⟨el', hout, hcase⟩
      refine ⟨el', hout, ?_⟩
      rcases hcase with hsame | ⟨a, b, c, d, e, hh1, _⟩
      · subst hsame
        exact Or.inr (Or.inl ⟨id, ty, pos, dat, ns, rfl, rfl, hnsmem⟩)
      · exact absurd hh1 (by simp)
    · have hset_j : (elements.set i (Element.node id ty pos
          { dat with nodeStatus := ns })).get? j = some el := by
        rw [List.get?_set_ne _ _ (fun h => hji h.symm)]
        exact helj
      rcases reclassFold_frame _ _ _ _ _ hfold j _ hset_j with ⟨el', hout, hcase⟩
      refine ⟨el', hout, ?_⟩
      rcases hcase with hsame | ⟨a, b, c, d, e, hh1, hh2⟩
      · exact Or.inl hsame
      · exact Or.inr (Or.inr ⟨a, b, c, d, e, ns, hh1, hh2, hnsmem⟩)

theorem statusSwapOk_elemId {old new : Element} (h : StatusSwapOk old new) :
    new.elemId = old.elemId := by
  rcases h with rfl | ⟨id, ty, pos, dat, s, rfl, rfl, _⟩ |
    ⟨eid, s, t, cls, lbl, cls2, rfl, rfl, _⟩ <;> rfl

theorem mapM_option_mem {α β : Type} {f : α → Option β} :
    ∀ {l : List α} {bl : List β}, l.mapM f = some bl →
      ∀ b ∈ bl, ∃ a ∈ l, f a = some b := by
  intro l
  induction l with
  | nil =>
    intro bl h b hb
    simp only [List.mapM_nil] at h
    cases h
    exact absurd hb (by simp)
  | cons a l ih =>
    intro bl h b hb
    rw [List.mapM_cons] at h
    rcases Option.bind_eq_some.mp h with ⟨b1, hb1, h2⟩
    rcases Option.bind_eq_some.mp h2 with ⟨bl1, hbl1, h3⟩
    injection h3 with h3
    subst h3
    rcases List.mem_cons.mp hb with rfl | hb
    · exact ⟨a, by simp, hb1⟩
    · rcases ih hbl1 b hb with ⟨a2, ha2, hfa2⟩
      exact ⟨a2, by simp [ha2], hfa2⟩

theorem mapM_option_some {α β : Type} {f : α → Option β} :
    ∀ {l : List α}, (∀ a ∈ l, ∃ b, f a = some b) →
      ∃ bl, l.mapM f = some bl := by
  intro l
  induction l with
  | nil => intro _; exact ⟨[], rfl⟩
  | cons a l ih =>
    intro h
    rcases h a (by simp) with ⟨b, hb⟩
    rcases ih (fun a2 ha2 => h a2 (by simp [ha2])) with ⟨bl, hbl⟩
    refine ⟨b :: bl, ?_⟩
    rw [List.mapM_cons, hb, hbl]
    rfl

theorem mem_statusCode_some {s : String} (h : s ∈ COURSE_STATUSES) :
    ∃ c, COURSE_STATUS_CODES s = some c := by
  fin_cases h <;> exact ⟨_, rfl⟩

theorem getEdgeStatus_success {eid s t cls : String} {lbl : Option String}
    (h : cls ∈ COURSE_STATUSES) :
    ∃ c, getEdgeStatus (Element.edge eid s t cls lbl) = some c := by
  rcases mem_statusCode_some h with ⟨c, hc⟩
  by_cases hcc : (decide (c = 1) && decide (lbl = some "CC")) = true
  · exact ⟨0, by simp only [getEdgeStatus, hc]; rw [if_pos hcc]⟩
  · exact ⟨c, by simp only [getEdgeStatus, hc]; rw [if_neg hcc]⟩

theorem reclassFold_success (ns : String) (idx : List (String × Nat)) :
    ∀ (ids : List String) (acc : List Element),
      (∀ eid ∈ ids, ∃ j e s t cls lbl, alGet idx eid = some j ∧
        acc.get? j = some (Element.edge e s t cls lbl)) →
      ∃ out, List.foldlM (reclassEdge ns idx) acc ids = some out := by
  intro ids
  induction ids with
  | nil => intro acc _; exact ⟨acc, rfl⟩
  | cons eid ids ih =>
    intro acc h
    rcases h eid (by simp) with ⟨j, e, s, t, cls, lbl, hj, hedge⟩
    have hstep : reclassEdge ns idx acc eid =
        some (acc.set j (Element.edge e s t ns lbl)) := by
      simp only [reclassEdge, hj, hedge]
    rcases ih (acc.set j (Element.edge e s t ns lbl)) (fun eid2 hm => by
      rcases h eid2 (by simp [hm]) with ⟨j2, e2, s2, t2, cls2, lbl2, hj2, hedge2⟩
      by_cases hjj : j = j2
      · subst hjj
        refine ⟨j, e, s, t, ns, lbl, hj2, ?_⟩
        rw [List.get?_set_eq, hedge]
        rfl
      · exact ⟨j2, e2, s2, t2, cls2, lbl2, hj2, by
          rw [List.get?_set_ne _ _ hjj]
          exact hedge2⟩) with ⟨out, hout⟩
    refine ⟨out, ?_⟩
    rw [List.foldlM_cons, hstep]
    simpa using hout

/-- Under `ElementsOk`, `updateNodeStatus` succeeds on any id with a
metadata entry. -/
theorem updateNodeStatus_success {x : String} {elements : List Element}
    {nodeData : NodeDataMap} {elemIndexes : List (String × Nat)}
    {rec : NodeDataRec}
    (hOk : ElementsOk elements nodeData elemIndexes)
    (hrec : alGet nodeData x = some rec) :
    ∃ out, updateNodeStatus x elements nodeData elemIndexes = some out := by
  obtain ⟨hidx, hnd, hcls⟩ := hOk
  obtain ⟨⟨i, ty, pos, dat, hnode⟩, hin, hout⟩ := hnd x rec hrec
  have hidxI : alGet elemIndexes x = some i := hidx i _ hnode
  have hcodes : ∃ codes, incomingStatusCodes x elements nodeData elemIndexes =
      some codes ∧ ∀ c ∈ codes, c < 6 := by
    obtain ⟨els, hels⟩ : ∃ els, rec.incomingEdges.mapM (fun id =>
        match alGet elemIndexes id with
        | none => none
        | some j => elements.get? j) = some els := by
      apply mapM_option_some
      intro eid hmem
      rcases hin eid hmem with ⟨j, s, cls, lbl, hedge⟩
      have : alGet elemIndexes eid = some j := hidx j _ hedge
      rw [this]
      exact ⟨_, hedge⟩
    obtain ⟨codes, hcodesm⟩ : ∃ codes, els.mapM getEdgeStatus = some codes := by
      apply mapM_option_some
      intro el hmem
      rcases mapM_option_mem hels el hmem with ⟨eid, hmemid, hfe⟩
      rcases hin eid hmemid with ⟨j, s, cls, lbl, hedge⟩
      have hj : alGet elemIndexes eid = some j := hidx j _ hedge
      simp only [hj, hedge] at hfe
      injection hfe with hfe
      rw [← hfe]
      exact getEdgeStatus_success (hcls j eid s x cls lbl hedge)
    refine ⟨codes, ?_, ?_⟩
    · simp only [incomingStatusCodes, resolveIncomingEdges, hrec, hels, hcodesm]
    · intro c hc
      rcases mapM_option_mem hcodesm c hc with ⟨el, _, hel⟩
      exact getEdgeStatus_lt_six hel
  obtain ⟨codes, hcodes, hlt⟩ := hcodes
  have hns : ∃ ns, newStatusFor ty dat.nodeStatus codes = some ns := by
    cases ty with
    | course => exact ⟨_, rfl⟩
    | and =>
      rcases List.get?_eq_get (show maxOrZero codes < COURSE_STATUSES.length from
        maxOrZero_lt_six hlt) with h
      exact ⟨_, h⟩
    | or =>
      rcases List.get?_eq_get (show minOrZero codes < COURSE_STATUSES.length from
        minOrZero_lt_six hlt) with h
      exact ⟨_, h⟩
  obtain ⟨ns, hns⟩ := hns
  have hset : ∃ out, setNodeStatus x ns elements nodeData elemIndexes = some out := by
    have hfold : ∃ out, List.foldlM (reclassEdge ns elemIndexes)
        (elements.set i (Element.node x ty pos { dat with nodeStatus := ns }))
        rec.outgoingEdges = some out := by
      apply reclassFold_success
      intro eid hmem
      rcases hout eid hmem with ⟨j, t, cls, lbl, hedge⟩
      have hj : alGet elemIndexes eid = some j := hidx j _ hedge
      have hij : i ≠ j := by
        intro hcontra
        subst hcontra
        rw [hnode] at hedge
        exact absurd hedge (by simp)
      refine ⟨j, eid, x, t, cls, lbl, hj, ?_⟩
      rw [List.get?_set_ne _ _ hij]
      exact hedge
    obtain ⟨out, hfold⟩ := hfold
    refine ⟨out, ?_⟩
    simp only [setNodeStatus, hidxI, hnode, hrec]
    exact hfold
  obtain ⟨out, hset⟩ := hset
  refine ⟨out, ?_⟩
  simp only [updateNodeStatus, hidxI, hnode, hcodes, hns]
  exact hset

/-- `updateNodeStatus` preserves `ElementsOk`. -/
theorem elementsOk_preserved {x : String} {elements : List Element}
    {nodeData : NodeDataMap} {elemIndexes : List (String × Nat)}
    {out : List Element}
    (hOk : ElementsOk elements nodeData elemIndexes)
    (hrun : updateNodeStatus x elements nodeData elemIndexes = some out) :
    ElementsOk out nodeData elemIndexes := by
  obtain ⟨hidx, hnd, hcls⟩ := hOk
  obtain ⟨hlen, hskel⟩ := updateNodeStatus_skeleton hrun
  have hfwd : ∀ j el, elements.get? j = some el →
      ∃ el', out.get? j = some el' ∧ StatusSwapOk el el' := hskel
  have hback : ∀ j el', out.get? j = some el' →
      ∃ el, elements.get? j = some el ∧ StatusSwapOk el el' := by
    intro j el' hj
    have hjlt : j < elements.length := by
      rw [← hlen]
      exact (List.get?_eq_some.mp hj).1
    rcases List.get?_eq_some.mpr ⟨hjlt, rfl⟩ with hel
    rcases hfwd j _ hel with ⟨el2, hel2, hsw⟩
    rw [hj] at hel2
    injection hel2 with hel2
    subst hel2
    exact ⟨_, hel, hsw⟩
  refine ⟨?_, ?_, ?_⟩
  · intro j el' hj
    rcases hback j el' hj with ⟨el, hel, hsw⟩
    rw [statusSwapOk_elemId hsw]
    exact hidx j el hel
  · intro x2 rec hrec
    obtain ⟨⟨j, ty, pos, dat, hnode⟩, hin, hout2⟩ := hnd x2 rec hrec
    refine ⟨?_, ?_, ?_⟩
    · rcases hfwd j _ hnode with ⟨el', hel', hsw⟩
      rcases hsw with rfl | ⟨id2, ty2, pos2, dat2, s, heq, heq', _⟩ |
        ⟨a, b, c, d, e, f, heq, _, _⟩
      · exact ⟨j, ty, pos, dat, hel'⟩
      · injection heq with g1 g2 g3 g4
        subst g1; subst g2; subst g3; subst g4
        exact ⟨j, ty, pos, _, heq' ▸ hel'⟩
      · exact absurd heq (by simp)
    · intro eid hmem
      rcases hin eid hmem with ⟨j2, s, cls, lbl, hedge⟩
      rcases hfwd j2 _ hedge with ⟨el', hel', hsw⟩
      rcases hsw with rfl | ⟨id2, ty2, pos2, dat2, s2, heq, _, _⟩ |
        ⟨a, b, c, d, e, f, heq, heq', _⟩
      · exact ⟨j2, s, cls, lbl, hel'⟩
      · exact absurd heq (by simp)
      · injection heq with g1 g2 g3 g4 g5
        subst g1; subst g2; subst g3; subst g4; subst g5
        exact ⟨j2, s, f, lbl, heq' ▸ hel'⟩
    · intro eid hmem
      rcases hout2 eid hmem with ⟨j2, t, cls, lbl, hedge⟩
      rcases hfwd j2 _ hedge with ⟨el', hel', hsw⟩
      rcases hsw with rfl | ⟨id2, ty2, pos2, dat2, s2, heq, _, _⟩ |
        ⟨a, b, c, d, e, f, heq, heq', _⟩
      · exact ⟨j2, t, cls, lbl, hel'⟩
      · exact absurd heq (by simp)
      · injection heq with g1 g2 g3 g4 g5
        subst g1; subst g2; subst g3; subst g4; subst g5
        exact ⟨j2, t, f, lbl, heq' ▸ hel'⟩
  · intro j eid s t cls lbl hj
    rcases hback j _ hj with ⟨el, hel, hsw⟩
    rcases hsw with heq | ⟨id2, ty2, pos2, dat2, s2, heq, heq', _⟩ |
      ⟨a, b, c, d, e, f, heq, heq', hmem⟩
    · rw [← heq] at hel
      exact hcls j eid s t cls lbl hel
    · exact absurd heq' (by simp)
    · injection heq' with g1 g2 g3 g4 g5
      subst g1; subst g2; subst g3; subst g4; subst g5
      exact hmem

/-- `updateNodeStatus` on an id with no metadata entry always fails (the
unguarded `nodeData.get(...)` branch). -/
theorem updateNodeStatus_noRecord {x : String} {elements : List Element}
    {nodeData : NodeDataMap} {elemIndexes : List (String × Nat)}
    (hmiss : alGet nodeData x = none) :
    updateNodeStatus x elements nodeData elemIndexes = none := by
  rcases hres : updateNodeStatus x elements nodeData elemIndexes with _ | out
  · rfl
  · exfalso
    rcases updateNodeStatus_eq_some hres with
      ⟨i, id, ty, pos, dat, codes, ns, _, _, hcodes, _, _⟩
    unfold incomingStatusCodes resolveIncomingEdges at hcodes
    rw [hmiss] at hcodes
    simp at hcodes

/-- The `updateAllNodes` loop succeeds from any `ElementsOk` state when
every visited entry of the original array has a metadata record. -/
theorem updateAllLoop_success {elements : List Element}
    {nodeData : NodeDataMap} {elemIndexes : List (String × Nat)} :
    ∀ (l : List Nat) (acc : List Element),
      ElementsOk acc nodeData elemIndexes →
      (∀ i ∈ l, ∃ el rec, elements.get? i = some el ∧
        alGet nodeData el.elemId = some rec) →
      ∃ out, List.foldlM
        (fun acc i =>
          match elements.get? i with
          | none => none
          | some el => updateNodeStatus el.elemId acc nodeData elemIndexes)
        acc l = some out := by
  intro l
  induction l with
  | nil => intro acc _ _; exact ⟨acc, rfl⟩
  | cons i l ih =>
    intro acc hOk hl
    rcases hl i (by simp) with ⟨el, rec, hel, hrec⟩
    rcases updateNodeStatus_success hOk hrec with ⟨acc1, hacc1⟩
    rcases ih acc1 (elementsOk_preserved hOk hacc1)
      (fun i2 hm => hl i2 (by simp [hm])) with ⟨out, hout⟩
    refine ⟨out, ?_⟩
    rw [List.foldlM_cons, hel]
    simp only [hacc1]
    exact hout

/-- The `updateAllNodes` loop fails as soon as a visited entry's id has
no metadata record. -/
theorem updateAllLoop_failure {elements : List Element}
    {nodeData : NodeDataMap} {elemIndexes : List (String × Nat)} :
    ∀ (l : List Nat) (acc : List Element) (i : Nat) (el : Element),
      i ∈ l → elements.get? i = some el → alGet nodeData el.elemId = none →
      List.foldlM
        (fun acc i =>
          match elements.get? i with
          | none => none
          | some el => updateNodeStatus el.elemId acc nodeData elemIndexes)
        acc l = none := by
  intro l
  induction l with
  | nil => intro acc i el hmem; exact absurd hmem (by simp)
  | cons i0 l ih =>
    intro acc i el hmem hel hmiss
    rw [List.foldlM_cons]
    rcases List.mem_cons.mp hmem with rfl | hmem2
    · rw [hel]
      have hred : (match some el with
          | none => none
          | some el => updateNodeStatus el.elemId acc nodeData elemIndexes) =
          updateNodeStatus el.elemId acc nodeData elemIndexes := rfl
      rw [hred, updateNodeStatus_noRecord hmiss]
      rfl
    · rcases hstep : (match elements.get? i0 with
        | none => none
        | some el => updateNodeStatus el.elemId acc nodeData elemIndexes) with _ | acc1
      · rw [hstep]
        rfl
      · rw [hstep]
        exact ih acc1 i el hmem2 hel hmiss

/-- C10 (confirmed): `updateAllNodes` recomputes exactly the statuses of
the ids of the first `nodeData.size` entries of `elements`, one
`updateNodeStatus` call each; it is well-defined exactly under the
precondition that each of those entries has a metadata record (the order
`sortElementsByDepth` produces, all nodes before all edges): with a
consistent state it returns a result, and as soon as one of the first
`nodeData.size` entries is an id without a metadata record — an edge id
— the unguarded metadata lookup makes the whole call fail. -/
theorem c10_updateAllNodes_welldefined {elements : List Element}
    {nodeData : NodeDataMap} {elemIndexes : List (String × Nat)}
    (hOk : ElementsOk elements nodeData elemIndexes) :
    ((∀ i < nodeData.length, ∃ el rec, elements.get? i = some el ∧
        alGet nodeData el.elemId = some rec) →
      ∃ out, updateAllNodes elements nodeData elemIndexes = some out) ∧
    (∀ i el, i < nodeData.length → elements.get? i = some el →
      alGet nodeData el.elemId = none →
      updateAllNodes elements nodeData elemIndexes = none) := by
  constructor
  · intro hall
    exact updateAllLoop_success (List.range nodeData.length) elements hOk
      (fun i hi => hall i (List.mem_range.mp hi))
  · intro i el hi hel hmiss
    exact updateAllLoop_failure (List.range nodeData.length) elements i el
      (List.mem_range.mpr hi) hel hmiss

/-- C10, witness: the single-node list `exEnrolledElems` is a consistent
state; the success half applies (and the failure half is vacuous since
the only entry is a node with a metadata record). -/
theorem c10_updateAllNodes_welldefined_witness :
    ((∀ i < exEnrolledData.length, ∃ el rec, exEnrolledElems.get? i = some el ∧
        alGet exEnrolledData el.elemId = some rec) →
      ∃ out, updateAllNodes exEnrolledElems exEnrolledData exEnrolledIdx = some out) ∧
    (∀ i el, i < exEnrolledData.length → exEnrolledElems.get? i = some el →
      alGet exEnrolledData el.elemId = none →
      updateAllNodes exEnrolledElems exEnrolledData exEnrolledIdx = none) :=
  @c10_updateAllNodes_welldefined exEnrolledElems exEnrolledData exEnrolledIdx
    ⟨by
      intro j el h
      rcases j with _ | j
      · injection h with h
        subst h
        decide
      · exact absurd h (by simp [exEnrolledElems]),
     by
      intro x rec h
      have hmem : (x, rec) ∈
          ([("E 101", ⟨0, [], [], [], [], [], []⟩)] : NodeDataMap) := alGet_mem h
      have heq := List.mem_singleton.mp hmem
      injection heq with h1 h2
      subst h1
      subst h2
      exact ⟨⟨0, NodeType.course, ZERO_POSITION, ⟨none, "enrolled", false⟩,
        by decide⟩, by intro eid hm; exact absurd hm (by simp),
        by intro eid hm; exact absurd hm (by simp)⟩,
     by
      intro j eid s t cls lbl h
      rcases j with _ | j
      · exact absurd h (by simp [exEnrolledElems])
      · exact absurd h (by simp [exEnrolledElems])⟩

/-! ## Claim C4 -/

theorem asString_data (l : List Char) : (List.asString l).data = l := rfl

theorem matchCRSAt_no_dash {cs m rest : List Char}
    (h : matchCRSAt cs = some (m, rest)) : noDash m.asString := by
  intro ch hm hd
  subst hd
  rw [asString_data] at hm
  rcases (matchCRSAt_chars h).1 '-' hm with h' | h' | h' <;> simp_all [isUpperAmp]

theorem tripleBodyAt_no_dash {cs : List Char} {a b c : String}
    (h : tripleBodyAt cs = some (a, b, c)) :
    noDash a ∧ noDash b ∧ noDash c := by
  unfold tripleBodyAt at h
  split at h
  · exact absurd h (by simp)
  · rename_i g1 r1 h1
    split at h
    · exact absurd h (by simp)
    · rename_i r2 h2
      split at h
      · exact absurd h (by simp)
      · rename_i g2 r3 h3
        split at h
        · exact absurd h (by simp)
        · rename_i r4 h4
          split at h
          · exact absurd h (by simp)
          · rename_i g3 r5 h5
            injection h with h
            injection h with ha h
            injection h with hb hc
            subst ha
            subst hb
            subst hc
            exact ⟨matchCRSAt_no_dash h1, matchCRSAt_no_dash h3,
              matchCRSAt_no_dash h5⟩

theorem tripleAt_no_dash {cs : List Char} {a b c : String}
    (h : tripleAt cs = some (a, b, c)) :
    noDash a ∧ noDash b ∧ noDash c := by
  unfold tripleAt at h
  split at h
  · split at h
    · rename_i m hbody
      injection h with h
      subst h
      exact tripleBodyAt_no_dash hbody
    · exact tripleBodyAt_no_dash h
  · exact tripleBodyAt_no_dash h

theorem tripleScan_no_dash :
    ∀ {cs : List Char} {a b c : String},
      tripleScan cs = some (a, b, c) → noDash a ∧ noDash b ∧ noDash c := by
  intro cs
  induction cs with
  | nil =>
    intro a b c h
    exact tripleAt_no_dash h
  | cons ch cs ih =>
    intro a b c h
    unfold tripleScan at h
    split at h
    · rename_i m hat
      injection h with h
      subst h
      exact tripleAt_no_dash hat
    · exact ih h

theorem tripleEitherMatch_no_dash {s : String} {a b c : String}
    (h : tripleEitherMatch s = some (a, b, c)) :
    noDash a ∧ noDash b ∧ noDash c :=
  tripleScan_no_dash h

theorem crsFind_shape :
    ∀ {cs m rest : List Char}, crsFind cs = some (m, rest) →
      ∃ cs2, matchCRSAt cs2 = some (m, rest) := by
  intro cs
  induction cs with
  | nil => intro m rest h; exact absurd h (by simp [crsFind])
  | cons ch cs ih =>
    intro m rest h
    unfold crsFind at h
    split at h
    · rename_i r hat
      injection h with h
      subst h
      exact ⟨ch :: cs, hat⟩
    · exact ih h

theorem matchAllCRS_no_dash :
    ∀ {fuel : Nat} {cs : List Char} {m : List Char},
      m ∈ matchAllCRS fuel cs → noDash m.asString := by
  intro fuel
  induction fuel with
  | zero => intro cs m h; exact absurd h (by simp [matchAllCRS])
  | succ f ih =>
    intro cs m h
    unfold matchAllCRS at h
    split at h
    · exact absurd h (by simp)
    · rename_i m2 rest hfind
      rcases List.mem_cons.mp h with rfl | h2
      · rcases crsFind_shape hfind with ⟨cs2, hat⟩
        exact matchCRSAt_no_dash hat
      · exact ih h2

theorem courseMatches_no_dash {s : String} {tok : String}
    (h : tok ∈ courseMatches s) : noDash tok := by
  unfold courseMatches at h
  rcases List.mem_map.mp h with ⟨m, hm, rfl⟩
  exact matchAllCRS_no_dash hm

theorem orId_dash (ty : NodeType) (n : Nat) :
    ('-' : Char) ∈ ((newConditionalNode ty n).elemId).data := by
  cases ty <;>
    · show ('-' : Char) ∈ ((NodeType.tagUpper _ ++ "-" ++ toString n)).data
      rw [String.data_append, String.data_append]
      refine List.mem_append.mpr (Or.inl (List.mem_append.mpr (Or.inr ?_)))
      decide

theorem noDash_ne_orId {s : String} (hs : noDash s) (ty : NodeType) (n : Nat) :
    s ≠ (newConditionalNode ty n).elemId := by
  intro heq
  exact hs '-' (heq ▸ orId_dash ty n) rfl

theorem matchesCourseId_noDash {s : String} (h : matchesCourseId s = true) :
    noDash s :=
  matchesCourseId_no_dash h

theorem filter_map_count_one {α β : Type} [DecidableEq α] {f : α → β}
    {q : β → Bool} {alt : α} :
    ∀ l : List α, l.Nodup → alt ∈ l → (∀ x, q (f x) = decide (x = alt)) →
      ((l.map f).filter q).length = 1 := by
  intro l
  induction l with
  | nil => intro _ hmem _; exact absurd hmem (by simp)
  | cons r l ih =>
    intro hnodup hmem hq
    rw [List.map_cons, List.filter_cons]
    by_cases hr : r = alt
    · subst hr
      rw [if_pos (by rw [hq r]; simp)]
      have htail : (l.map f).filter q = [] := by
        rw [List.filter_eq_nil]
        intro b hb
        rcases List.mem_map.mp hb with ⟨x, hx, rfl⟩
        rw [hq x]
        simp only [decide_eq_true_eq]
        intro hxr
        subst hxr
        exact (List.nodup_cons.mp hnodup).1 hx
      rw [htail]
      rfl
    · rw [if_neg (by rw [hq r]; simp [hr])]
      rcases List.mem_cons.mp hmem with rfl | hmem2
      · exact absurd rfl hr
      · exact ih (List.nodup_cons.mp hnodup).2 hmem2 hq

/-- C4 (confirmed): when a deferred ambiguous clause matches the
triple-either pattern with all of its course-id tokens captured, the
captured alternatives are distinct, and more than one of them is already
present in the id set, the second pass synthesizes exactly one `or` gate
node, with exactly one incoming edge from each already-present
alternative, exactly one outgoing edge — from the gate — to the owning
course, and no direct edge from any alternative to the owning course. -/
theorem c4_triple_or_gate {mode course sect : String} {st : GenState}
    {a b c : String}
    (htriple : tripleEitherMatch sect = some (a, b, c))
    (hnum : (courseMatches sect).length = 3)
    (hnodup : ([a, b, c] : List String).Nodup)
    (hpresent : 1 < ([a, b, c].filter (fun m => idsHas st.elementIds m)).length)
    (hcourse : matchesCourseId course = true) :
    ∃ out, processSection mode course sect st = some out ∧
      ∃ suffix, out.elements = st.elements ++ suffix ∧
        suffix.filter Element.isNode =
          [newConditionalNode NodeType.or st.nextId] ∧
        suffix.filter (fun e => e.isEdge && decide (e.edgeTarget = course)) =
          [newEdge (newConditionalNode NodeType.or st.nextId).elemId course none] ∧
        (∀ alt ∈ [a, b, c].filter (fun m => idsHas st.elementIds m),
          (suffix.filter (fun e => e.isEdge && decide (e.edgeSource = alt) &&
            decide (e.edgeTarget =
              (newConditionalNode NodeType.or st.nextId).elemId))).length = 1) ∧
        (∀ e ∈ suffix, e.isEdge = true →
          ¬(e.edgeSource ∈ ([a, b, c] : List String) ∧
            e.edgeTarget = course)) := by
  have hcap : eitherCaptures sect = some [a, b, c] := by
    unfold eitherCaptures
    rw [htriple]
  have hne_course_or : course ≠ (newConditionalNode NodeType.or st.nextId).elemId :=
    noDash_ne_orId (matchesCourseId_noDash hcourse) _ _
  obtain ⟨hna, hnb, hnc⟩ := tripleEitherMatch_no_dash htriple
  have halt_nd : ∀ alt ∈ ([a, b, c] : List String), noDash alt := by
    intro alt hm
    fin_cases hm <;> assumption
  have hres : processSection mode course sect st = some
      { st with
        elements := st.elements ++
          [newConditionalNode NodeType.or st.nextId,
           newEdge (newConditionalNode NodeType.or st.nextId).elemId course none] ++
          (([a, b, c].filter (fun m => idsHas st.elementIds m)).map (fun req =>
            let edge := newEdge req (newConditionalNode NodeType.or st.nextId).elemId none
            if concurrentTest sect then withConcurrentLabel edge else edge))
        nextId := st.nextId + 1 } := by
    simp only [processSection, hnum, hcap]
    rw [if_neg (by decide : ¬((3 : Nat) = 0))]
    rw [if_pos (by rfl : ([a, b, c] : List String).length = 3)]
    rw [if_neg (ne_of_gt hpresent)]
    rw [if_pos hpresent]
  have hreq : ∀ e ∈ ([a, b, c].filter (fun m => idsHas st.elementIds m)).map
      (fun req =>
        let edge := newEdge req (newConditionalNode NodeType.or st.nextId).elemId none
        if concurrentTest sect then withConcurrentLabel edge else edge),
      ∃ req lbl, req ∈ [a, b, c].filter (fun m => idsHas st.elementIds m) ∧
        e = Element.edge
          (edgeArrowId req (newConditionalNode NodeType.or st.nextId).elemId)
          req (newConditionalNode NodeType.or st.nextId).elemId
          "over-one-away" lbl := by
    intro e he
    rcases List.mem_map.mp he with ⟨req, hreqmem, rfl⟩
    by_cases hcc : concurrentTest sect = true
    · exact ⟨req, some "CC", hreqmem, by
        simp only [hcc, if_true, newEdge, withConcurrentLabel, Option.getD]⟩
    · exact ⟨req, none, hreqmem, by
        simp only [hcc, if_false, Bool.false_eq_true, newEdge, Option.getD]⟩
  refine ⟨_, hres, [newConditionalNode NodeType.or st.nextId,
      newEdge (newConditionalNode NodeType.or st.nextId).elemId course none] ++
      (([a, b, c].filter (fun m => idsHas st.elementIds m)).map (fun req =>
        let edge := newEdge req (newConditionalNode NodeType.or st.nextId).elemId none
        if concurrentTest sect then withConcurrentLabel edge else edge)),
    by simp [List.append_assoc], ?_, ?_, ?_, ?_⟩
  · rw [List.filter_append, List.filter_cons, List.filter_cons, List.filter_nil]
    rw [if_pos (by rfl)]
    rw [if_neg (by simp [newEdge, Element.isNode])]
    have htail : (([a, b, c].filter (fun m => idsHas st.elementIds m)).map
        (fun req =>
          let edge := newEdge req (newConditionalNode NodeType.or st.nextId).elemId none
          if concurrentTest sect then withConcurrentLabel edge else edge)).filter
        Element.isNode = [] := by
      rw [List.filter_eq_nil]
      intro e he
      rcases hreq e he with ⟨req, lbl, _, rfl⟩
      simp [Element.isNode]
    rw [htail]
    simp
  · rw [List.filter_append, List.filter_cons, List.filter_cons, List.filter_nil]
    rw [if_neg (by simp [newConditionalNode, Element.isEdge])]
    rw [if_pos (by simp [newEdge, Element.isEdge, Element.edgeTarget])]
    have htail : (([a, b, c].filter (fun m => idsHas st.elementIds m)).map
        (fun req =>
          let edge := newEdge req (newConditionalNode NodeType.or st.nextId).elemId none
          if concurrentTest sect then withConcurrentLabel edge else edge)).filter
        (fun e => e.isEdge && decide (e.edgeTarget = course)) = [] := by
      rw [List.filter_eq_nil]
      intro e he
      rcases hreq e he with ⟨req, lbl, _, rfl⟩
      simp [Element.isEdge, Element.edgeTarget, Ne.symm hne_course_or]
    rw [htail]
    simp
  · intro alt haltmem
    have haltnd : noDash alt :=
      halt_nd alt (List.mem_of_mem_filter haltmem)
    have hne_alt_or : (newConditionalNode NodeType.or st.nextId).elemId ≠ alt :=
      fun h => noDash_ne_orId haltnd NodeType.or st.nextId h.symm
    rw [List.filter_append, List.filter_cons, List.filter_cons, List.filter_nil]
    rw [if_neg (by simp [newConditionalNode, Element.isEdge])]
    rw [if_neg (by
      simp [newEdge, Element.isEdge, Element.edgeSource, Element.edgeTarget,
        hne_alt_or])]
    rw [List.nil_append]
    refine filter_map_count_one _ (List.Nodup.filter _ hnodup) haltmem ?_
    intro x
    by_cases hcc : concurrentTest sect = true <;>
      simp [hcc, newEdge, withConcurrentLabel, Element.isEdge,
        Element.edgeSource, Element.edgeTarget]
  · intro e he hisedge
    rintro ⟨hsrc, htgt⟩
    rcases List.mem_append.mp he with hmem | hmem
    · rcases List.mem_cons.mp hmem with rfl | hmem2
      · exact absurd hisedge (by simp [newConditionalNode, Element.isEdge])
      · rcases List.mem_singleton.mp hmem2 with rfl
        have : (newConditionalNode NodeType.or st.nextId).elemId ∈
            ([a, b, c] : List String) := hsrc
        exact noDash_ne_orId (halt_nd _ this) NodeType.or st.nextId rfl
    · rcases hreq e hmem with ⟨req, lbl, _, rfl⟩
      exact hne_course_or htgt.symm

/-- C4, witness: the clause `"CSE 311, CSE 321, or CSE 331"` for owner
`CSE 332` with `CSE 311` and `CSE 321` present yields one synthesized
`or` node with two incoming edges and one outgoing edge to `CSE 332`. -/
theorem c4_triple_or_gate_witness :
    ∃ out, processSection "conservative" "CSE 332" exCseSection exCseState =
      some out ∧
      ∃ suffix, out.elements = exCseState.elements ++ suffix ∧
        suffix.filter Element.isNode = [newConditionalNode NodeType.or 0] ∧
        suffix.filter (fun e => e.isEdge && decide (e.edgeTarget = "CSE 332")) =
          [newEdge (newConditionalNode NodeType.or 0).elemId "CSE 332" none] ∧
        (∀ alt ∈ ["CSE 311", "CSE 321", "CSE 331"].filter
            (fun m => idsHas exCseState.elementIds m),
          (suffix.filter (fun e => e.isEdge && decide (e.edgeSource = alt) &&
            decide (e.edgeTarget =
              (newConditionalNode NodeType.or 0).elemId))).length = 1) ∧
        (∀ e ∈ suffix, e.isEdge = true →
          ¬(e.edgeSource ∈ (["CSE 311", "CSE 321", "CSE 331"] : List String) ∧
            e.edgeTarget = "CSE 332")) :=
  c4_triple_or_gate (by decide) (by decide) (by decide) (by decide) (by decide)

/-! ## Claim C8 -/

/-- C8, counterexample: the deferred clause `"B 102 B 103"` (for owner
`A 101`) matches neither either-pattern, yet under `"aggressively"` no
edge at all is added for its tokens `B 102`, `B 103` — `addEdges` skips
tokens that are not existing node ids — contradicting "adds an edge from
every course-id token found in the clause". -/
theorem c8_aggressive_not_every_token :
    generateInitialElements exUnparsedCourses "aggressively" =
      some [newCourseNode { id := "A 101", prerequisite := "B 102 B 103" }] ∧
    courseMatches "B 102 B 103" = ["B 102", "B 103"] ∧
    tripleEitherMatch "B 102 B 103" = none ∧
    doubleEitherMatch "B 102 B 103" = none := by
  refine ⟨by decide, by decide, by decide, by decide⟩

theorem idsHas_iff {l : List String} {x : String} :
    idsHas l x = true ↔ x ∈ l :=
  List.elem_iff

theorem edgeArrowId_dash (x y : String) :
    ('-' : Char) ∈ (edgeArrowId x y).data := by
  unfold edgeArrowId
  rw [String.data_append, String.data_append]
  refine List.mem_append.mpr (Or.inl (List.mem_append.mpr (Or.inr ?_)))
  decide

theorem noDash_ne_arrow {s : String} (hs : noDash s) (x y : String) :
    s ≠ edgeArrowId x y := by
  intro heq
  exact hs '-' (heq ▸ edgeArrowId_dash x y) rfl

theorem edgeArrowId_inj_of_noDash {a b c d : String}
    (ha : noDash a) (hc : noDash c)
    (h : edgeArrowId a b = edgeArrowId c d) : a = c ∧ b = d := by
  have hdata : a.data ++ (' ' :: '-' :: '>' :: ' ' :: b.data) =
      c.data ++ (' ' :: '-' :: '>' :: ' ' :: d.data) := by
    have := congrArg String.data h
    simpa [edgeArrowId, String.data_append] using this
  rcases sep_append_inj a.data c.data b.data d.data ha hc hdata with ⟨h1, h2⟩
  exact ⟨String.ext h1, String.ext h2⟩

theorem addEdges_spec :
    ∀ (sources : List String) (target : String) (st : GenState),
      sources.Nodup → noDash target → (∀ s ∈ sources, noDash s) →
      ∃ suffix, (addEdges sources target st).elements = st.elements ++ suffix ∧
        (∀ e ∈ suffix, ∃ s ∈ sources,
          e = newEdge s target (some (edgeArrowId s target)) ∧
          idsHas st.elementIds s = true ∧
          idsHas st.elementIds (edgeArrowId s target) = false ∧
          idsHas st.elementIds (edgeArrowId target s) = false) ∧
        (∀ s ∈ sources, idsHas st.elementIds s = true →
          idsHas st.elementIds (edgeArrowId s target) = false →
          idsHas st.elementIds (edgeArrowId target s) = false →
          newEdge s target (some (edgeArrowId s target)) ∈ suffix) := by
  intro sources
  induction sources with
  | nil =>
    intro target st _ _ _
    exact ⟨[], by simp [addEdges], by simp, by simp⟩
  | cons s0 ss ih =>
    intro target st hnodup htnd hsnd
    by_cases hc : (idsHas st.elementIds s0 &&
        !idsHas st.elementIds (edgeArrowId s0 target) &&
        !idsHas st.elementIds (edgeArrowId target s0)) = true
    · have hstep : addEdges (s0 :: ss) target st = addEdges ss target
          { st with
            elements := st.elements ++
              [newEdge s0 target (some (edgeArrowId s0 target))]
            elementIds := st.elementIds ++ [edgeArrowId s0 target] } := by
        simp only [addEdges, List.foldl_cons]
        rw [if_pos hc]
      rcases Bool.and_eq_true _ _ ▸ hc with ⟨hc1, hc3⟩
      rcases Bool.and_eq_true _ _ ▸ hc1 with ⟨hhas, hc2⟩
      have harrow : idsHas st.elementIds (edgeArrowId s0 target) = false := by
        simpa using hc2
      have hrev : idsHas st.elementIds (edgeArrowId target s0) = false := by
        simpa using hc3
      rcases ih target _ (List.nodup_cons.mp hnodup).2 htnd
        (fun s hs => hsnd s (by simp [hs])) with ⟨suffix1, helems, hsound, hcomp⟩
      refine ⟨newEdge s0 target (some (edgeArrowId s0 target)) :: suffix1,
        ?_, ?_, ?_⟩
      · rw [hstep, helems]
        simp
      · intro e he
        rcases List.mem_cons.mp he with rfl | he2
        · exact ⟨s0, by simp, rfl, hhas, harrow, hrev⟩
        · rcases hsound e he2 with ⟨s, hsmem, rfl, hs1, hs2, hs3⟩
          refine ⟨s, by simp [hsmem], rfl, ?_, ?_, ?_⟩
          · rcases (idsHas_iff.mp hs1 : s ∈ st.elementIds ++ [edgeArrowId s0 target])
              |> List.mem_append.mp with hmem | hmem
            · exact idsHas_iff.mpr hmem
            · exact absurd (List.mem_singleton.mp hmem)
                (noDash_ne_arrow (hsnd s (by simp [hsmem])) s0 target)
          · rw [← Bool.not_eq_true] at hs2 ⊢
            intro hcontra
            exact hs2 (idsHas_iff.mpr (List.mem_append.mpr
              (Or.inl (idsHas_iff.mp hcontra))))
          · rw [← Bool.not_eq_true] at hs3 ⊢
            intro hcontra
            exact hs3 (idsHas_iff.mpr (List.mem_append.mpr
              (Or.inl (idsHas_iff.mp hcontra))))
      · intro s hsmem h1 h2 h3
        rcases List.mem_cons.mp hsmem with rfl | hsmem2
        · exact List.mem_cons_self _ _
        · have hne : s ≠ s0 := by
            intro hcontra
            subst hcontra
            exact (List.nodup_cons.mp hnodup).1 hsmem2
          refine List.mem_cons_of_mem _ (hcomp s hsmem2 ?_ ?_ ?_)
          · exact idsHas_iff.mpr (List.mem_append.mpr
              (Or.inl (idsHas_iff.mp h1)))
          · rw [← Bool.not_eq_true] at h2 ⊢
            intro hcontra
            rcases List.mem_append.mp (idsHas_iff.mp hcontra) with hmem | hmem
            · exact h2 (idsHas_iff.mpr hmem)
            · rcases edgeArrowId_inj_of_noDash
                (hsnd s (by simp [hsmem2])) (hsnd s0 (by simp))
                (List.mem_singleton.mp hmem) with ⟨heq, _⟩
              exact hne heq
          · rw [← Bool.not_eq_true] at h3 ⊢
            intro hcontra
            rcases List.mem_append.mp (idsHas_iff.mp hcontra) with hmem | hmem
            · exact h3 (idsHas_iff.mpr hmem)
            · rcases edgeArrowId_inj_of_noDash htnd
                (hsnd s0 (by simp)) (List.mem_singleton.mp hmem) with ⟨heq1, heq2⟩
              exact hne (heq2.trans heq1)
    · have hstep : addEdges (s0 :: ss) target st = addEdges ss target st := by
        simp only [addEdges, List.foldl_cons]
        rw [if_neg hc]
      rcases ih target st (List.nodup_cons.mp hnodup).2 htnd
        (fun s hs => hsnd s (by simp [hs])) with ⟨suffix1, helems, hsound, hcomp⟩
      refine ⟨suffix1, by rw [hstep, helems], ?_, ?_⟩
      · intro e he
        rcases hsound e he with ⟨s, hsmem, rfl, hs1, hs2, hs3⟩
        exact ⟨s, by simp [hsmem], rfl, hs1, hs2, hs3⟩
      · intro s hsmem h1 h2 h3
        rcases List.mem_cons.mp hsmem with rfl | hsmem2
        · exfalso
          apply hc
          rw [h1, h2, h3]
          rfl
        · exact hcomp s hsmem2 h1 h2 h3

/-- C8 (amended): for a deferred clause matching neither either-pattern
(or whose match does not capture all course-id tokens), the conservative
mode adds no elements and raises no exception, and the aggressive mode
hands all the clause's (distinct) course-id tokens to `addEdges`, which
adds one edge to the owning course from exactly those tokens that are
existing node ids and whose edge and reverse edge are not already
recorded; tokens unknown as nodes are skipped. -/
theorem c8_unmatched_clause {course sect : String} {st : GenState}
    (hcap : ∀ caps, eitherCaptures sect = some caps →
      caps.length ≠ (courseMatches sect).length)
    (htok : ¬((courseMatches sect).length = 0))
    (hnodup : (courseMatches sect).Nodup)
    (hcourse : matchesCourseId course = true) :
    processSection "conservative" course sect st = some st ∧
    processSection "aggressively" course sect st =
      some (addEdges (courseMatches sect) course st) ∧
    ∃ suffix,
      (addEdges (courseMatches sect) course st).elements =
        st.elements ++ suffix ∧
      (∀ e ∈ suffix, ∃ tok ∈ courseMatches sect,
        e = newEdge tok course (some (edgeArrowId tok course)) ∧
        idsHas st.elementIds tok = true ∧
        idsHas st.elementIds (edgeArrowId tok course) = false ∧
        idsHas st.elementIds (edgeArrowId course tok) = false) ∧
      (∀ tok ∈ courseMatches sect, idsHas st.elementIds tok = true →
        idsHas st.elementIds (edgeArrowId tok course) = false →
        idsHas st.elementIds (edgeArrowId course tok) = false →
        newEdge tok course (some (edgeArrowId tok course)) ∈ suffix) := by
  refine ⟨?_, ?_, ?_⟩
  · simp only [processSection]
    split
    · rename_i h0
      exact absurd h0 htok
    · split
      · rename_i caps hec
        split
        · rename_i hval
          exact absurd hval (hcap caps hec)
        · split
          · rename_i hagg
            exact absurd hagg (by decide)
          · rfl
      · split
        · rename_i hagg
          exact absurd hagg (by decide)
        · rfl
  · simp only [processSection]
    split
    · rename_i h0
      exact absurd h0 htok
    · split
      · rename_i caps hec
        split
        · rename_i hval
          exact absurd hval (hcap caps hec)
        · split
          · rfl
          · rename_i hnagg
            exact absurd trivial hnagg
      · split
        · rfl
        · rename_i hnagg
          exact absurd trivial hnagg
  · exact addEdges_spec (courseMatches sect) course st hnodup
      (matchesCourseId_noDash hcourse)
      (fun s hs => courseMatches_no_dash hs)

/-- C8, witness: the unparsable clause `"B 102 B 103"` for owner `A 101`
with `B 102` present as a node: conservative mode leaves the state
unchanged; aggressive mode adds exactly the edge `B 102 -> A 101`. -/
theorem c8_unmatched_clause_witness :
    processSection "conservative" "A 101" "B 102 B 103"
      ⟨[newCourseNode { id := "A 101", prerequisite := "" },
        newCourseNode { id := "B 102", prerequisite := "" }],
       ["A 101", "B 102"], 0⟩ =
      some ⟨[newCourseNode { id := "A 101", prerequisite := "" },
        newCourseNode { id := "B 102", prerequisite := "" }],
       ["A 101", "B 102"], 0⟩ ∧
    processSection "aggressively" "A 101" "B 102 B 103"
      ⟨[newCourseNode { id := "A 101", prerequisite := "" },
        newCourseNode { id := "B 102", prerequisite := "" }],
       ["A 101", "B 102"], 0⟩ =
      some (addEdges (courseMatches "B 102 B 103") "A 101"
        ⟨[newCourseNode { id := "A 101", prerequisite := "" },
          newCourseNode { id := "B 102", prerequisite := "" }],
         ["A 101", "B 102"], 0⟩) ∧
    ∃ suffix,
      (addEdges (courseMatches "B 102 B 103") "A 101"
        ⟨[newCourseNode { id := "A 101", prerequisite := "" },
          newCourseNode { id := "B 102", prerequisite := "" }],
         ["A 101", "B 102"], 0⟩).elements =
        [newCourseNode { id := "A 101", prerequisite := "" },
         newCourseNode { id := "B 102", prerequisite := "" }] ++ suffix ∧
      (∀ e ∈ suffix, ∃ tok ∈ courseMatches "B 102 B 103",
        e = newEdge tok "A 101" (some (edgeArrowId tok "A 101")) ∧
        idsHas ["A 101", "B 102"] tok = true ∧
        idsHas ["A 101", "B 102"] (edgeArrowId tok "A 101") = false ∧
        idsHas ["A 101", "B 102"] (edgeArrowId "A 101" tok) = false) ∧
      (∀ tok ∈ courseMatches "B 102 B 103", idsHas ["A 101", "B 102"] tok = true →
        idsHas ["A 101", "B 102"] (edgeArrowId tok "A 101") = false →
        idsHas ["A 101", "B 102"] (edgeArrowId "A 101" tok) = false →
        newEdge tok "A 101" (some (edgeArrowId tok "A 101")) ∈ suffix) :=
  c8_unmatched_clause
    (fun caps h => by
      rw [show eitherCaptures "B 102 B 103" = none from by decide] at h
      cases h)
    (by decide) (by decide) (by decide)

/-! ## C2: edge uniqueness invariants of the parser -/

theorem addEdges_cons (s : String) (rest : List String) (target : String)
    (st : GenState) :
    addEdges (s :: rest) target st =
      addEdges rest target
        (if idsHas st.elementIds s
            && !idsHas st.elementIds (edgeArrowId s target)
            && !idsHas st.elementIds (edgeArrowId target s) then
          { st with
            elements :=
              st.elements ++ [newEdge s target (some (edgeArrowId s target))]
            elementIds := st.elementIds ++ [edgeArrowId s target] }
        else st) := rfl

theorem edgeInvariant_push {st : GenState} {s t : String}
    (hinv : EdgeInvariant st)
    (hid : idsHas st.elementIds (edgeArrowId s t) = false)
    (hrev : idsHas st.elementIds (edgeArrowId t s) = false) :
    EdgeInvariant
      { st with
        elements := st.elements ++ [newEdge s t (some (edgeArrowId s t))]
        elementIds := st.elementIds ++ [edgeArrowId s t] } := by
  obtain ⟨hshape, hpw⟩ := hinv
  constructor
  · intro e hm he
    rcases List.mem_append.mp hm with hm | hm
    · obtain ⟨h1, h2⟩ := hshape e hm he
      refine ⟨h1, ?_⟩
      rw [idsHas_iff] at h2 ⊢
      exact List.mem_append.mpr (Or.inl h2)
    · rw [List.mem_singleton] at hm
      subst hm
      refine ⟨rfl, ?_⟩
      rw [idsHas_iff]
      exact List.mem_append.mpr (Or.inr (List.mem_singleton.mpr rfl))
  · rw [List.pairwise_append]
    refine ⟨hpw, List.pairwise_singleton _ _, ?_⟩
    intro e1 hm1 e2 hm2
    rw [List.mem_singleton] at hm2
    subst hm2
    intro he1 _
    obtain ⟨h1, h2⟩ := hshape e1 hm1 he1
    constructor
    · rintro ⟨hs, ht⟩
      rw [show (newEdge s t (some (edgeArrowId s t))).edgeSource = s from rfl]
        at hs
      rw [show (newEdge s t (some (edgeArrowId s t))).edgeTarget = t from rfl]
        at ht
      rw [hs, ht] at h1
      rw [h1] at h2
      rw [hid] at h2
      cases h2
    · rintro ⟨hs, ht⟩
      rw [show (newEdge s t (some (edgeArrowId s t))).edgeTarget = t from rfl]
        at hs
      rw [show (newEdge s t (some (edgeArrowId s t))).edgeSource = s from rfl]
        at ht
      rw [hs, ht] at h1
      rw [h1] at h2
      rw [hrev] at h2
      cases h2

theorem addEdges_edgeInvariant (sources : List String) (target : String)
    {st : GenState} (hinv : EdgeInvariant st) :
    EdgeInvariant (addEdges sources target st) := by
  induction sources generalizing st with
  | nil => exact hinv
  | cons s rest ih =>
    rw [addEdges_cons]
    by_cases hc : (idsHas st.elementIds s
        && !idsHas st.elementIds (edgeArrowId s target)
        && !idsHas st.elementIds (edgeArrowId target s)) = true
    · rw [if_pos hc]
      rw [Bool.and_eq_true, Bool.and_eq_true] at hc
      obtain ⟨⟨_, h2⟩, h3⟩ := hc
      rw [Bool.not_eq_true'] at h2 h3
      exact ih (edgeInvariant_push hinv h2 h3)
    · rw [if_neg hc]
      exact ih hinv

theorem firstPassStep_edgeInvariant (courseId : String) (sect : String)
    {acc : GenState × List (String × List String)}
    (hinv : EdgeInvariant acc.1) :
    EdgeInvariant (firstPassStep courseId acc sect).1 := by
  rw [firstPassStep]
  rcases hm : courseMatches sect with _ | ⟨m, _ | ⟨m2, r⟩⟩
  · exact hinv
  · exact addEdges_edgeInvariant [m] courseId hinv
  · exact hinv

theorem firstPassSections_edgeInvariant (courseId : String)
    (sections : List String)
    {acc : GenState × List (String × List String)}
    (hinv : EdgeInvariant acc.1) :
    EdgeInvariant (firstPassSections courseId sections acc).1 := by
  induction sections generalizing acc with
  | nil => exact hinv
  | cons s rest ih =>
    rw [firstPassSections, List.foldl_cons]
    exact ih (firstPassStep_edgeInvariant courseId s hinv)

theorem firstPassCourse_edgeInvariant
    {acc : GenState × List (String × List String)} (data : CourseData)
    (hinv : EdgeInvariant acc.1) :
    EdgeInvariant (firstPassCourse acc data).1 := by
  rw [firstPassCourse]
  split
  · exact hinv
  · exact firstPassSections_edgeInvariant _ _ hinv

theorem firstPass_edgeInvariant (courseData : List CourseData)
    {st : GenState} (hinv : EdgeInvariant st) :
    EdgeInvariant (firstPass courseData st).1 := by
  have key : ∀ (l : List CourseData)
      (acc : GenState × List (String × List String)),
      EdgeInvariant acc.1 → EdgeInvariant (l.foldl firstPassCourse acc).1 := by
    intro l
    induction l with
    | nil => intro acc h; exact h
    | cons d rest ih =>
      intro acc h
      rw [List.foldl_cons]
      exact ih _ (firstPassCourse_edgeInvariant d h)
  exact key courseData (st, []) hinv

theorem initialGenState_no_edges (courseData : List CourseData) :
    ∀ e ∈ (initialGenState courseData).elements, e.isEdge = false := by
  intro e hm
  rw [initialGenState] at hm
  simp only [List.mem_map] at hm
  obtain ⟨c, _, rfl⟩ := hm
  rfl

theorem pairwise_of_no_edges {l : List Element}
    (h : ∀ e ∈ l, e.isEdge = false) : l.Pairwise EdgePairOk := by
  induction l with
  | nil => exact List.Pairwise.nil
  | cons a t ih =>
    refine List.Pairwise.cons ?_ (ih fun e he => h e (List.mem_cons_of_mem a he))
    intro b _ ha _
    rw [h a (List.mem_cons_self a t)] at ha
    cases ha

theorem initialGenState_edgeInvariant (courseData : List CourseData) :
    EdgeInvariant (initialGenState courseData) := by
  constructor
  · intro e hm he
    rw [initialGenState_no_edges courseData e hm] at he
    cases he
  · exact pairwise_of_no_edges (initialGenState_no_edges courseData)

theorem addEdges_noSelfLoop (sources : List String) (target : String)
    {st : GenState} (h : NoSelfLoop st.elements) (hne : target ∉ sources) :
    NoSelfLoop (addEdges sources target st).elements := by
  induction sources generalizing st with
  | nil => exact h
  | cons s rest ih =>
    have hs : s ≠ target := fun hh => hne (hh ▸ List.mem_cons_self s rest)
    have hrest : target ∉ rest := fun hh => hne (List.mem_cons_of_mem s hh)
    rw [addEdges_cons]
    by_cases hc : (idsHas st.elementIds s
        && !idsHas st.elementIds (edgeArrowId s target)
        && !idsHas st.elementIds (edgeArrowId target s)) = true
    · rw [if_pos hc]
      refine ih ?_ hrest
      intro e hm he
      rcases List.mem_append.mp hm with hm | hm
      · exact h e hm he
      · rw [List.mem_singleton] at hm
        subst hm
        exact hs
    · rw [if_neg hc]
      exact ih h hrest

theorem firstPassStep_noSelfLoop (courseId : String) (sect : String)
    {acc : GenState × List (String × List String)}
    (h : NoSelfLoop acc.1.elements)
    (hc : courseId ∉ courseMatches sect) :
    NoSelfLoop (firstPassStep courseId acc sect).1.elements := by
  rw [firstPassStep]
  rcases hm : courseMatches sect with _ | ⟨m, _ | ⟨m2, r⟩⟩
  · exact h
  · rw [hm] at hc
    exact addEdges_noSelfLoop [m] courseId h hc
  · exact h

theorem firstPassSections_noSelfLoop (courseId : String)
    (sections : List String)
    {acc : GenState × List (String × List String)}
    (h : NoSelfLoop acc.1.elements)
    (hc : ∀ sect ∈ sections, courseId ∉ courseMatches sect) :
    NoSelfLoop (firstPassSections courseId sections acc).1.elements := by
  induction sections generalizing acc with
  | nil => exact h
  | cons s rest ih =>
    rw [firstPassSections, List.foldl_cons]
    exact ih
      (firstPassStep_noSelfLoop courseId s h (hc s (List.mem_cons_self s rest)))
      fun sect hs => hc sect (List.mem_cons_of_mem s hs)

theorem firstPassCourse_noSelfLoop
    {acc : GenState × List (String × List String)} (data : CourseData)
    (h : NoSelfLoop acc.1.elements)
    (hc : ∀ sect ∈ splitSections data.prerequisite,
      data.id ∉ courseMatches sect) :
    NoSelfLoop (firstPassCourse acc data).1.elements := by
  rw [firstPassCourse]
  split
  · exact h
  · exact firstPassSections_noSelfLoop _ _ h hc

theorem firstPass_noSelfLoop (courseData : List CourseData)
    {st : GenState} (h : NoSelfLoop st.elements)
    (hc : ∀ cd ∈ courseData, ∀ sect ∈ splitSections cd.prerequisite,
      cd.id ∉ courseMatches sect) :
    NoSelfLoop (firstPass courseData st).1.elements := by
  have key : ∀ (l : List CourseData)
      (acc : GenState × List (String × List String)),
      NoSelfLoop acc.1.elements →
      (∀ cd ∈ l, ∀ sect ∈ splitSections cd.prerequisite,
        cd.id ∉ courseMatches sect) →
      NoSelfLoop (l.foldl firstPassCourse acc).1.elements := by
    intro l
    induction l with
    | nil => intro acc hh _; exact hh
    | cons d rest ih =>
      intro acc hh hcl
      rw [List.foldl_cons]
      exact ih _
        (firstPassCourse_noSelfLoop d hh (hcl d (List.mem_cons_self d rest)))
        fun cd hcd => hcl cd (List.mem_cons_of_mem d hcd)
  exact key courseData (st, []) h hc

/-- C2, counterexample: a course that lists itself as its own prerequisite
produces a self-loop edge in the output of `generateInitialElements`, so
the element list is not always free of self-loops. -/
theorem c2_self_loop_exists :
    (generateInitialElements exSelfCourses "conservative").isSome = true ∧
    ((generateInitialElements exSelfCourses "conservative").getD []).any
      (fun e => e.isEdge && decide (e.edgeSource = e.edgeTarget)) = true := by
  constructor
  · decide
  · decide

/-- C2 (amended): after the first pass of `generateInitialElements` (where
every edge goes through the duplicate-checking `addEdges`), no two edges of
the element list connect the same ordered pair of ids and no two edges
connect opposite pairs; moreover, if no course's own id occurs among the
course tokens of its prerequisite sections, no edge is a self-loop. -/
theorem c2_firstPass_edges_invariant (courseData : List CourseData) :
    (firstPass courseData (initialGenState courseData)).1.elements.Pairwise
      EdgePairOk ∧
    ((∀ cd ∈ courseData, ∀ sect ∈ splitSections cd.prerequisite,
        cd.id ∉ courseMatches sect) →
      NoSelfLoop (firstPass courseData (initialGenState courseData)).1.elements) := by
  constructor
  · exact
      (firstPass_edgeInvariant courseData
        (initialGenState_edgeInvariant courseData)).2
  · intro hc
    refine firstPass_noSelfLoop courseData ?_ hc
    intro e hm he
    rw [initialGenState_no_edges courseData e hm] at he
    cases he

/-- C2, witness: the invariant evaluated on the one-course example
`MATH 125 requires "Either MATH 124 or MATH 134"`. -/
theorem c2_firstPass_edges_invariant_witness :
    (firstPass exMathCourses (initialGenState exMathCourses)).1.elements.Pairwise
      EdgePairOk ∧
    NoSelfLoop (firstPass exMathCourses (initialGenState exMathCourses)).1.elements :=
  ⟨(c2_firstPass_edges_invariant exMathCourses).1,
   (c2_firstPass_edges_invariant exMathCourses).2 (by decide)⟩

/-! ## C5: depth metadata computed by newNodeData -/

theorem alGet_cons {α : Type} (p : String × α) (t : List (String × α))
    (k : String) :
    alGet (p :: t) k = if p.1 = k then some p.2 else alGet t k := by
  by_cases h : p.1 = k
  · rw [if_pos h, alGet, List.find?_cons_of_pos t (by simpa using h)]
    rfl
  · rw [if_neg h, alGet, List.find?_cons_of_neg t (by simpa using h)]
    rfl

theorem alGet_mapSet {α : Type} (k k' : String) (v : α) :
    ∀ m : List (String × α),
      alGet (m.map (fun p => if p.1 = k then (k, v) else p)) k' =
        if k' = k then
          (if m.any (fun p => p.1 = k) then some v else none)
        else alGet m k' := by
  intro m
  induction m with
  | nil =>
    by_cases h : k' = k <;> simp [alGet, h]
  | cons p t ih =>
    by_cases hp : p.1 = k
    · by_cases hk : k' = k
      · subst hk
        simp [alGet_cons, hp, ih, List.any_cons]
      · have hk2 : ¬ k = k' := fun hh => hk hh.symm
        have hpk' : ¬ p.1 = k' := by rw [hp]; exact hk2
        simp [alGet_cons, hp, hk, hk2, hpk', ih]
    · by_cases hk : k' = k
      · subst hk
        simp only [List.map_cons, if_neg hp, alGet_cons, List.any_cons,
          decide_eq_false hp, Bool.false_or, ih]
      · simp [alGet_cons, hp, hk, ih, List.any_cons]

theorem alGet_append_single {α : Type} (k k' : String) (v : α) :
    ∀ m : List (String × α), m.any (fun p => p.1 = k) = false →
      alGet (m ++ [(k, v)]) k' =
        if k' = k then some v else alGet m k' := by
  intro m
  induction m with
  | nil =>
    intro _
    by_cases h : k' = k
    · have h2 : (k, v).1 = k' := h.symm
      simp [alGet_cons, h, h2]
    · have h2 : ¬ (k, v).1 = k' := fun hh => h hh.symm
      simp [alGet, h, h2]
  | cons p t ih =>
    intro hany
    rw [List.any_cons] at hany
    have hp : ¬ p.1 = k := by
      intro hh
      simp [hh] at hany
    have ht : t.any (fun p => p.1 = k) = false := by
      cases ho : t.any (fun p => p.1 = k)
      · rfl
      · rw [ho] at hany
        simp at hany
    by_cases hp' : p.1 = k'
    · have hk : ¬ k' = k := fun hh => hp (hp'.trans hh)
      simp [alGet_cons, hp', hk]
    · simp [alGet_cons, hp', ih ht]

theorem alGet_alSet {α : Type} (m : List (String × α)) (k k' : String)
    (v : α) :
    alGet (alSet m k v) k' = if k' = k then some v else alGet m k' := by
  rw [alSet]
  cases hany : m.any (fun p => p.1 = k)
  · rw [if_neg (by simp)]
    exact alGet_append_single k k' v m hany
  · rw [if_pos rfl, alGet_mapSet, hany]
    simp

theorem alGet_alSet_self {α : Type} (m : List (String × α)) (k : String)
    (v : α) : alGet (alSet m k v) k = some v := by
  rw [alGet_alSet, if_pos rfl]

theorem alGet_alSet_ne {α : Type} (m : List (String × α)) {k k' : String}
    (v : α) (h : k' ≠ k) : alGet (alSet m k v) k' = alGet m k' := by
  rw [alGet_alSet, if_neg h]

theorem depthLE_refl (m : NodeDataMap) : DepthLE m m := by
  constructor
  · intro k
    exact Iff.rfl
  · intro k rec h
    exact ⟨rec, h, le_refl _, rfl, rfl, rfl, rfl, rfl, rfl⟩

theorem depthLE_trans {a b c : NodeDataMap} (h1 : DepthLE a b)
    (h2 : DepthLE b c) : DepthLE a c := by
  constructor
  · intro k
    exact (h1.1 k).trans (h2.1 k)
  · intro k rec h
    obtain ⟨r1, hg1, hd1, f1, f2, f3, f4, f5, f6⟩ := h1.2 k rec h
    obtain ⟨r2, hg2, hd2, g1, g2, g3, g4, g5, g6⟩ := h2.2 k r1 hg1
    exact ⟨r2, hg2, le_trans hd1 hd2, g1.trans f1, g2.trans f2, g3.trans f3,
      g4.trans f4, g5.trans f5, g6.trans f6⟩

theorem depthLE_lower {m m' : NodeDataMap} (h : DepthLE m m') {x : String}
    {rec' : NodeDataRec} (hg' : alGet m' x = some rec') :
    ∃ rec, alGet m x = some rec ∧ rec.depth ≤ rec'.depth := by
  cases hg : alGet m x with
  | none =>
    rw [(h.1 x).mp hg] at hg'
    cases hg'
  | some rec =>
    obtain ⟨rec'', hg'', hd, _, _, _, _, _, _⟩ := h.2 x rec hg
    rw [hg'] at hg''
    cases hg''
    exact ⟨rec, rfl, hd⟩

theorem depthLE_alSet {m : NodeDataMap} {k : String} {rec : NodeDataRec}
    (hg : alGet m k = some rec) {d : Nat} (hd : rec.depth ≤ d) :
    DepthLE m (alSet m k { rec with depth := d }) := by
  constructor
  · intro k'
    by_cases hk : k' = k
    · subst hk
      rw [alGet_alSet_self, hg]
      simp
    · rw [alGet_alSet_ne _ _ hk]
  · intro k' rec' hg'
    by_cases hk : k' = k
    · subst hk
      rw [hg] at hg'
      cases hg'
      exact ⟨{ rec with depth := d }, alGet_alSet_self m _ _, hd,
        rfl, rfl, rfl, rfl, rfl, rfl⟩
    · exact ⟨rec', by rw [alGet_alSet_ne _ _ hk]; exact hg', le_refl _,
        rfl, rfl, rfl, rfl, rfl, rfl⟩

theorem adjOk_of_depthLE {elements : List Element} {m m' : NodeDataMap}
    (hle : DepthLE m m') (h : AdjOk elements m) : AdjOk elements m' := by
  intro k rec' hg'
  cases hg : alGet m k with
  | none =>
    rw [(hle.1 k).mp hg] at hg'
    cases hg'
  | some rec =>
    obtain ⟨rec'', hg'', _, _, _, _, hout, _, _⟩ := hle.2 k rec hg
    rw [hg'] at hg''
    cases hg''
    rw [hout]
    exact h k rec hg

theorem pathLen_snoc {elements : List Element} {u v w : String} {L : Nat}
    (p : PathLen elements u v L) (e : EdgeRel elements v w) :
    PathLen elements u w (L + 1) := by
  induction p with
  | refl => exact PathLen.cons e (PathLen.refl _)
  | cons e' _ ih => exact PathLen.cons e' (ih e)

theorem pathLen_zero {elements : List Element} {a b : String}
    (p : PathLen elements a b 0) : a = b := by
  cases p
  rfl

theorem pathLen_last_edge {elements : List Element} {v : String} :
    ∀ {k : Nat} {u : String}, PathLen elements u v (k + 1) →
      ∃ w, EdgeRel elements w v := by
  intro k
  induction k with
  | zero =>
    intro u p
    cases p with
    | cons e p' =>
      rw [pathLen_zero p'] at e
      exact ⟨u, e⟩
  | succ n ih =>
    intro u p
    cases p with
    | cons e p' => exact ih p'

theorem mem_outgoing_iff (elements : List Element) (x y : String) :
    y ∈ (outgoingEdgesOf x elements).map Element.edgeTarget ↔
      EdgeRel elements x y := by
  constructor
  · intro h
    obtain ⟨e, he, htgt⟩ := List.mem_map.mp h
    obtain ⟨hmem, hpred⟩ := List.mem_filter.mp he
    cases e with
    | node id ty pos dat => cases hpred
    | edge id s t cls lbl =>
      have hs : s = x := by simpa using hpred
      have ht : t = y := htgt
      subst hs
      subst ht
      exact ⟨id, cls, lbl, hmem⟩
  · rintro ⟨id, cls, lbl, hmem⟩
    refine List.mem_map.mpr ⟨Element.edge id x y cls lbl, ?_, rfl⟩
    exact List.mem_filter.mpr ⟨hmem, by simp⟩

theorem incoming_nil_iff (elements : List Element) (x : String) :
    incomingEdgesOf x elements = [] ↔ ¬∃ w, EdgeRel elements w x := by
  rw [incomingEdgesOf, List.filter_eq_nil]
  constructor
  · rintro h ⟨w, id, cls, lbl, hmem⟩
    have := h _ hmem
    simp at this
  · intro h e hmem
    cases e with
    | node id ty pos dat => simp
    | edge id s t cls lbl =>
      simp only [decide_eq_true_eq]
      intro ht
      subst ht
      exact h ⟨s, id, cls, lbl, hmem⟩

theorem visitOutgoers_depthLE :
    ∀ (f : Nat) (outs : List String) (d : Nat) (m m' : NodeDataMap),
      visitOutgoers f outs d m = some m' → DepthLE m m' := by
  intro f
  induction f with
  | zero =>
    intro outs d m m' h
    cases outs with
    | nil =>
      simp only [visitOutgoers] at h
      cases h
      exact depthLE_refl m
    | cons o os =>
      simp only [visitOutgoers] at h
      cases h
  | succ f ih =>
    intro outs d m m' h
    cases outs with
    | nil =>
      simp only [visitOutgoers] at h
      cases h
      exact depthLE_refl m
    | cons o os =>
      simp only [visitOutgoers] at h
      rcases hg : alGet m o with _ | rec
      · simp only [hg] at h
        cases h
      · simp only [hg] at h
        rcases hv : visitOutgoers f rec.outgoingNodes (d + 1)
            (alSet m o { rec with depth := max rec.depth (d + 1) }) with _ | m2
        · simp only [hv] at h
          cases h
        · simp only [hv] at h
          exact depthLE_trans (depthLE_alSet hg (le_max_left _ _))
            (depthLE_trans (ih rec.outgoingNodes (d + 1) _ _ hv)
              (ih os d _ _ h))

theorem visitOutgoers_lb (elements : List Element) :
    ∀ (f : Nat) (outs : List String) (d : Nat) (m m' : NodeDataMap),
      AdjOk elements m →
      visitOutgoers f outs d m = some m' →
      ∀ o ∈ outs, ∀ x L, PathLen elements o x L →
        ∀ rec', alGet m' x = some rec' → d + 1 + L ≤ rec'.depth := by
  intro f
  induction f with
  | zero =>
    intro outs d m m' _ h o ho
    cases outs with
    | nil => exact absurd ho (List.not_mem_nil o)
    | cons o1 os =>
      simp only [visitOutgoers] at h
      cases h
  | succ f ih =>
    intro outs d m m' hadj h o ho
    cases outs with
    | nil => exact absurd ho (List.not_mem_nil o)
    | cons o1 os =>
      simp only [visitOutgoers] at h
      rcases hg : alGet m o1 with _ | rec
      · simp only [hg] at h
        cases h
      · simp only [hg] at h
        rcases hv : visitOutgoers f rec.outgoingNodes (d + 1)
            (alSet m o1 { rec with depth := max rec.depth (d + 1) }) with _ | m2
        · simp only [hv] at h
          cases h
        · simp only [hv] at h
          have hle1 : DepthLE m
              (alSet m o1 { rec with depth := max rec.depth (d + 1) }) :=
            depthLE_alSet hg (le_max_left _ _)
          have hadj1 : AdjOk elements
              (alSet m o1 { rec with depth := max rec.depth (d + 1) }) :=
            adjOk_of_depthLE hle1 hadj
          have hle2 : DepthLE
              (alSet m o1 { rec with depth := max rec.depth (d + 1) }) m2 :=
            visitOutgoers_depthLE f rec.outgoingNodes (d + 1) _ _ hv
          have hle3 : DepthLE m2 m' := visitOutgoers_depthLE f os d _ _ h
          rcases List.mem_cons.mp ho with ho1 | hos
          · subst ho1
            intro x L p
            cases p with
            | refl =>
              intro rec' hg'
              obtain ⟨rec1, hg1, hd1⟩ :=
                depthLE_lower (depthLE_trans hle2 hle3) hg'
              rw [alGet_alSet_self] at hg1
              cases hg1
              have hd1' : max rec.depth (d + 1) ≤ rec'.depth := hd1
              have hmax : d + 1 ≤ max rec.depth (d + 1) := le_max_right _ _
              omega
            | cons e p' =>
              intro rec' hg'
              rename_i v k
              have hvmem : v ∈ rec.outgoingNodes := by
                rw [hadj _ _ hg]
                exact (mem_outgoing_iff elements o v).mpr e
              have hb := ih rec.outgoingNodes (d + 1) _ m2 hadj1 hv v hvmem x k p'
              obtain ⟨rec2, hg2, hd2⟩ := depthLE_lower hle3 hg'
              have hb2 := hb rec2 hg2
              omega
          · intro x L p rec' hg'
            exact ih os d m2 m'
              (adjOk_of_depthLE (depthLE_trans hle1 hle2) hadj) h o hos x L p
              rec' hg'

theorem visitOutgoers_ub (elements : List Element) :
    ∀ (f : Nat) (outs : List String) (d : Nat) (m m' : NodeDataMap),
      AdjOk elements m → ValidDepths elements m →
      (∀ o ∈ outs, RootPath elements o (d + 1)) →
      visitOutgoers f outs d m = some m' →
      ValidDepths elements m' := by
  intro f
  induction f with
  | zero =>
    intro outs d m m' _ hvalid _ h
    cases outs with
    | nil =>
      simp only [visitOutgoers] at h
      cases h
      exact hvalid
    | cons o os =>
      simp only [visitOutgoers] at h
      cases h
  | succ f ih =>
    intro outs d m m' hadj hvalid houts h
    cases outs with
    | nil =>
      simp only [visitOutgoers] at h
      cases h
      exact hvalid
    | cons o os =>
      simp only [visitOutgoers] at h
      rcases hg : alGet m o with _ | rec
      · simp only [hg] at h
        cases h
      · simp only [hg] at h
        rcases hv : visitOutgoers f rec.outgoingNodes (d + 1)
            (alSet m o { rec with depth := max rec.depth (d + 1) }) with _ | m2
        · simp only [hv] at h
          cases h
        · simp only [hv] at h
          have hro : RootPath elements o (d + 1) :=
            houts o (List.mem_cons_self o os)
          have hvalid1 : ValidDepths elements
              (alSet m o { rec with depth := max rec.depth (d + 1) }) := by
            intro k rec' hg'
            by_cases hk : k = o
            · subst hk
              rw [alGet_alSet_self] at hg'
              cases hg'
              rcases le_total rec.depth (d + 1) with hle | hle
              · have hmax :
                    ({ rec with depth := max rec.depth (d + 1) } :
                      NodeDataRec).depth = d + 1 := max_eq_right hle
                rw [hmax]
                exact Or.inr hro
              · have hmax :
                    ({ rec with depth := max rec.depth (d + 1) } :
                      NodeDataRec).depth = rec.depth := max_eq_left hle
                rw [hmax]
                exact hvalid k rec hg
            · rw [alGet_alSet_ne _ _ hk] at hg'
              exact hvalid k rec' hg'
          have hadj1 : AdjOk elements
              (alSet m o { rec with depth := max rec.depth (d + 1) }) :=
            adjOk_of_depthLE (depthLE_alSet hg (le_max_left _ _)) hadj
          have houts1 : ∀ o2 ∈ rec.outgoingNodes,
              RootPath elements o2 (d + 1 + 1) := by
            intro o2 ho2
            rw [hadj _ _ hg] at ho2
            have he : EdgeRel elements o o2 :=
              (mem_outgoing_iff elements o o2).mp ho2
            obtain ⟨r, hr, pr⟩ := hro
            exact ⟨r, hr, pathLen_snoc pr he⟩
          have hvalid2 := ih rec.outgoingNodes (d + 1) _ m2 hadj1 hvalid1
            houts1 hv
          have hadj2 : AdjOk elements m2 :=
            adjOk_of_depthLE (visitOutgoers_depthLE f _ _ _ _ hv) hadj1
          exact ih os d m2 m' hadj2 hvalid2
            (fun o2 ho2 => houts o2 (List.mem_cons_of_mem o ho2)) h

theorem initialNodeData_get (elements : List Element) :
    ∀ k, alGet (initialNodeData elements) k =
      if k ∈ (nodesOf elements).map Element.elemId
      then some (initialDataOf k elements) else none := by
  have key : ∀ (ns : List Element) (m : NodeDataMap) (k : String),
      alGet (ns.foldl
        (fun m n => alSet m n.elemId (initialDataOf n.elemId elements)) m) k =
        if k ∈ ns.map Element.elemId then some (initialDataOf k elements)
        else alGet m k := by
    intro ns
    induction ns with
    | nil =>
      intro m k
      simp
    | cons n t ih =>
      intro m k
      rw [List.foldl_cons, ih]
      by_cases hk : k ∈ t.map Element.elemId
      · rw [if_pos hk, List.map_cons, if_pos (List.mem_cons_of_mem _ hk)]
      · rw [if_neg hk, List.map_cons, alGet_alSet]
        by_cases he : k = n.elemId
        · rw [if_pos he, if_pos (by rw [he]; exact List.mem_cons_self _ _),
            he]
        · rw [if_neg he, if_neg (by simp [he, hk])]
  intro k
  rw [initialNodeData, key]
  by_cases hk : k ∈ (nodesOf elements).map Element.elemId
  · rw [if_pos hk, if_pos hk]
  · rw [if_neg hk, if_neg hk]
    rfl

theorem initialDataOf_depth (k : String) (elements : List Element) :
    (initialDataOf k elements).depth = 0 := rfl

theorem initialDataOf_outgoing (k : String) (elements : List Element) :
    (initialDataOf k elements).outgoingNodes =
      (outgoingEdgesOf k elements).map Element.edgeTarget := rfl

theorem initialDataOf_incoming (k : String) (elements : List Element) :
    (initialDataOf k elements).incomingNodes =
      (incomingEdgesOf k elements).map Element.edgeSource := rfl

theorem initialNodeData_adjOk (elements : List Element) :
    AdjOk elements (initialNodeData elements) := by
  intro k rec hg
  rw [initialNodeData_get] at hg
  by_cases hk : k ∈ (nodesOf elements).map Element.elemId
  · rw [if_pos hk] at hg
    cases hg
    exact initialDataOf_outgoing k elements
  · rw [if_neg hk] at hg
    cases hg

theorem initialNodeData_valid (elements : List Element) :
    ValidDepths elements (initialNodeData elements) := by
  intro k rec hg
  rw [initialNodeData_get] at hg
  by_cases hk : k ∈ (nodesOf elements).map Element.elemId
  · rw [if_pos hk] at hg
    cases hg
    exact Or.inl (initialDataOf_depth k elements)
  · rw [if_neg hk] at hg
    cases hg

theorem rootIds_spec (elements : List Element) (r : String) :
    r ∈ rootIds elements ↔
      (r ∈ (nodesOf elements).map Element.elemId ∧
        incomingEdgesOf r elements = []) := by
  rw [rootIds]
  constructor
  · intro h
    obtain ⟨n, hn, he⟩ := List.mem_map.mp h
    obtain ⟨hmem, hpred⟩ := List.mem_filter.mp hn
    subst he
    refine ⟨List.mem_map.mpr ⟨n, hmem, rfl⟩, ?_⟩
    have hni : (initialDataOf n.elemId elements).incomingNodes = [] := by
      simpa using hpred
    rw [initialDataOf_incoming] at hni
    exact List.map_eq_nil.mp hni
  · rintro ⟨hmem, hinc⟩
    obtain ⟨n, hn, he⟩ := List.mem_map.mp hmem
    subst he
    refine List.mem_map.mpr ⟨n, List.mem_filter.mpr ⟨hn, ?_⟩, rfl⟩
    simp only [decide_eq_true_eq]
    rw [initialDataOf_incoming, hinc]
    rfl

theorem rootsFold_depthLE (fuel : Nat) :
    ∀ (roots : List String) (m nd : NodeDataMap),
      roots.foldlM (fun m root => discoverMaxDepths fuel root 0 m) m =
        some nd →
      DepthLE m nd := by
  intro roots
  induction roots with
  | nil =>
    intro m nd h
    have h' : some m = some nd := h
    cases h'
    exact depthLE_refl m
  | cons r rs ih =>
    intro m nd h
    have hcons : (r :: rs).foldlM
        (fun m root => discoverMaxDepths fuel root 0 m) m =
        (discoverMaxDepths fuel r 0 m).bind
          (fun m1 => rs.foldlM
            (fun m root => discoverMaxDepths fuel root 0 m) m1) := rfl
    rw [hcons] at h
    rcases hstep : discoverMaxDepths fuel r 0 m with _ | m1
    · rw [hstep, Option.none_bind] at h
      cases h
    · rw [hstep, Option.some_bind] at h
      have h1 : DepthLE m m1 := by
        simp only [discoverMaxDepths] at hstep
        rcases hg : alGet m r with _ | rec
        · simp only [hg] at hstep
          cases hstep
        · simp only [hg] at hstep
          exact visitOutgoers_depthLE fuel _ _ _ _ hstep
      exact depthLE_trans h1 (ih m1 nd h)

theorem rootsFold_valid (elements : List Element) (fuel : Nat) :
    ∀ (roots : List String) (m nd : NodeDataMap),
      (∀ r ∈ roots, r ∈ (nodesOf elements).map Element.elemId ∧
        incomingEdgesOf r elements = []) →
      AdjOk elements m → ValidDepths elements m →
      roots.foldlM (fun m root => discoverMaxDepths fuel root 0 m) m =
        some nd →
      ValidDepths elements nd := by
  intro roots
  induction roots with
  | nil =>
    intro m nd _ _ hvalid h
    have h' : some m = some nd := h
    cases h'
    exact hvalid
  | cons r rs ih =>
    intro m nd hroots hadj hvalid h
    have hcons : (r :: rs).foldlM
        (fun m root => discoverMaxDepths fuel root 0 m) m =
        (discoverMaxDepths fuel r 0 m).bind
          (fun m1 => rs.foldlM
            (fun m root => discoverMaxDepths fuel root 0 m) m1) := rfl
    rw [hcons] at h
    rcases hstep : discoverMaxDepths fuel r 0 m with _ | m1
    · rw [hstep, Option.none_bind] at h
      cases h
    · rw [hstep, Option.some_bind] at h
      simp only [discoverMaxDepths] at hstep
      rcases hg : alGet m r with _ | rec
      · simp only [hg] at hstep
        cases hstep
      · simp only [hg] at hstep
        obtain ⟨hrmem, hrinc⟩ := hroots r (List.mem_cons_self r rs)
        have hrp : RootPath elements r 0 := ⟨r, ⟨hrmem, hrinc⟩, PathLen.refl r⟩
        have houts : ∀ o ∈ rec.outgoingNodes, RootPath elements o (0 + 1) := by
          intro o ho
          rw [hadj _ _ hg] at ho
          have he : EdgeRel elements r o :=
            (mem_outgoing_iff elements r o).mp ho
          obtain ⟨r0, hr0, p0⟩ := hrp
          exact ⟨r0, hr0, pathLen_snoc p0 he⟩
        have hvalid1 : ValidDepths elements m1 :=
          visitOutgoers_ub elements fuel rec.outgoingNodes 0 m m1 hadj hvalid
            houts hstep
        have hadj1 : AdjOk elements m1 :=
          adjOk_of_depthLE (visitOutgoers_depthLE fuel _ _ _ _ hstep) hadj
        exact ih m1 nd (fun r' hr' => hroots r' (List.mem_cons_of_mem r hr'))
          hadj1 hvalid1 h

theorem rootsFold_lb (elements : List Element) (fuel : Nat) :
    ∀ (roots : List String) (m nd : NodeDataMap),
      AdjOk elements m →
      roots.foldlM (fun m root => discoverMaxDepths fuel root 0 m) m =
        some nd →
      ∀ r ∈ roots, ∀ x L, PathLen elements r x L →
        ∀ rec', alGet nd x = some rec' → L ≤ rec'.depth := by
  intro roots
  induction roots with
  | nil =>
    intro m nd _ _ r hr
    exact absurd hr (List.not_mem_nil r)
  | cons r0 rs ih =>
    intro m nd hadj h r hr
    have hcons : (r0 :: rs).foldlM
        (fun m root => discoverMaxDepths fuel root 0 m) m =
        (discoverMaxDepths fuel r0 0 m).bind
          (fun m1 => rs.foldlM
            (fun m root => discoverMaxDepths fuel root 0 m) m1) := rfl
    rw [hcons] at h
    rcases hstep : discoverMaxDepths fuel r0 0 m with _ | m1
    · rw [hstep, Option.none_bind] at h
      cases h
    · rw [hstep, Option.some_bind] at h
      simp only [discoverMaxDepths] at hstep
      rcases hg : alGet m r0 with _ | rec
      · simp only [hg] at hstep
        cases hstep
      · simp only [hg] at hstep
        have hle1 : DepthLE m m1 := visitOutgoers_depthLE fuel _ _ _ _ hstep
        have hadj1 : AdjOk elements m1 := adjOk_of_depthLE hle1 hadj
        have hle2 : DepthLE m1 nd := rootsFold_depthLE fuel rs m1 nd h
        rcases List.mem_cons.mp hr with hr0 | hrs
        · subst hr0
          intro x L p
          cases p with
          | refl =>
            intro rec' hg'
            exact Nat.zero_le _
          | cons e p' =>
            intro rec' hg'
            rename_i v k
            have hvmem : v ∈ rec.outgoingNodes := by
              rw [hadj _ _ hg]
              exact (mem_outgoing_iff elements r v).mpr e
            have hb := visitOutgoers_lb elements fuel rec.outgoingNodes 0 m m1
              hadj hstep v hvmem x k p'
            obtain ⟨rec2, hg2, hd2⟩ := depthLE_lower hle2 hg'
            have hb2 := hb rec2 hg2
            omega
        · intro x L p rec' hg'
          exact ih m1 nd hadj1 h r hrs x L p rec' hg'

theorem incoming_ne_nil (elements : List Element) (x : String)
    (h : incomingEdgesOf x elements ≠ []) : ∃ w, EdgeRel elements w x := by
  by_contra hno
  exact h ((incoming_nil_iff elements x).mpr hno)

theorem exists_root_path (elements : List Element)
    (hends : ∀ u v, EdgeRel elements u v →
      u ∈ (nodesOf elements).map Element.elemId ∧
      v ∈ (nodesOf elements).map Element.elemId)
    (hacyc : Acyclic elements) :
    ∀ u, u ∈ (nodesOf elements).map Element.elemId →
      ∃ L, RootPath elements u L := by
  classical
  have key : ∀ (N : Nat) (u : String),
      u ∈ (nodesOf elements).map Element.elemId →
      (((nodesOf elements).map Element.elemId).toFinset.filter
        (fun x => ∃ L, PathLen elements x u L)).card ≤ N →
      ∃ L, RootPath elements u L := by
    intro N
    induction N with
    | zero =>
      intro u hu hcard
      exfalso
      have humem : u ∈ ((nodesOf elements).map Element.elemId).toFinset.filter
          (fun x => ∃ L, PathLen elements x u L) :=
        Finset.mem_filter.mpr ⟨List.mem_toFinset.mpr hu, ⟨0, PathLen.refl u⟩⟩
      have hpos : 0 <
          (((nodesOf elements).map Element.elemId).toFinset.filter
            (fun x => ∃ L, PathLen elements x u L)).card :=
        Finset.card_pos.mpr ⟨u, humem⟩
      omega
    | succ N ih =>
      intro u hu hcard
      by_cases hroot : incomingEdgesOf u elements = []
      · exact ⟨0, u, ⟨hu, hroot⟩, PathLen.refl u⟩
      · obtain ⟨w, he⟩ := incoming_ne_nil elements u hroot
        have hw : w ∈ (nodesOf elements).map Element.elemId :=
          (hends w u he).1
        have hsub : ((nodesOf elements).map Element.elemId).toFinset.filter
              (fun x => ∃ L, PathLen elements x w L) ⊆
            ((nodesOf elements).map Element.elemId).toFinset.filter
              (fun x => ∃ L, PathLen elements x u L) := by
          intro x hx
          obtain ⟨hxid, L, p⟩ := Finset.mem_filter.mp hx
          exact Finset.mem_filter.mpr ⟨hxid, ⟨L + 1, pathLen_snoc p he⟩⟩
        have hunot : u ∉ ((nodesOf elements).map Element.elemId).toFinset.filter
            (fun x => ∃ L, PathLen elements x w L) := by
          intro hx
          obtain ⟨_, L, p⟩ := Finset.mem_filter.mp hx
          exact hacyc u L (pathLen_snoc p he)
        have humem : u ∈ ((nodesOf elements).map Element.elemId).toFinset.filter
            (fun x => ∃ L, PathLen elements x u L) :=
          Finset.mem_filter.mpr ⟨List.mem_toFinset.mpr hu, ⟨0, PathLen.refl u⟩⟩
        have hss := (Finset.ssubset_iff_of_subset hsub).mpr ⟨u, humem, hunot⟩
        have hlt := Finset.card_lt_card hss
        obtain ⟨L, r, hr, p⟩ := ih w hw (by omega)
        exact ⟨L + 1, r, hr, pathLen_snoc p he⟩
  intro u hu
  exact key (((nodesOf elements).map Element.elemId).toFinset.filter
    (fun x => ∃ L, PathLen elements x u L)).card u hu (le_refl _)

/-- C5: on an acyclic element list whose edge endpoints are node ids, a
successful `newNodeData` run records metadata for every node, gives every
root node (a node with no incoming edges) depth `0`, and for every edge
`u -> v` satisfies `depth(v) ≥ depth(u) + 1`. -/
theorem c5_newNodeData_depths (elements : List Element) (fuel : Nat)
    (nd : NodeDataMap)
    (hends : ∀ u v, EdgeRel elements u v →
      u ∈ (nodesOf elements).map Element.elemId ∧
      v ∈ (nodesOf elements).map Element.elemId)
    (hacyc : Acyclic elements)
    (hrun : newNodeData fuel elements = some nd) :
    (∀ u ∈ (nodesOf elements).map Element.elemId,
      ∃ rec, alGet nd u = some rec) ∧
    (∀ r rec, alGet nd r = some rec → incomingEdgesOf r elements = [] →
      rec.depth = 0) ∧
    (∀ u v, EdgeRel elements u v → ∀ du dv, alGet nd u = some du →
      alGet nd v = some dv → du.depth + 1 ≤ dv.depth) := by
  rw [newNodeData] at hrun
  have hadj0 := initialNodeData_adjOk elements
  have hle : DepthLE (initialNodeData elements) nd :=
    rootsFold_depthLE fuel (rootIds elements) _ nd hrun
  have hvalid : ValidDepths elements nd :=
    rootsFold_valid elements fuel (rootIds elements) _ nd
      (fun r hr => (rootIds_spec elements r).mp hr) hadj0
      (initialNodeData_valid elements) hrun
  have hlb : ∀ r ∈ rootIds elements, ∀ x L, PathLen elements r x L →
      ∀ rec', alGet nd x = some rec' → L ≤ rec'.depth :=
    rootsFold_lb elements fuel (rootIds elements) _ nd hadj0 hrun
  refine ⟨?_, ?_, ?_⟩
  · intro u hu
    rcases hnd : alGet nd u with _ | rec
    · exfalso
      have h0 : alGet (initialNodeData elements) u = none :=
        (hle.1 u).mpr hnd
      rw [initialNodeData_get, if_pos hu] at h0
      cases h0
    · exact ⟨rec, rfl⟩
  · intro r rec hg hinc
    rcases hvalid r rec hg with h0 | hrp
    · exact h0
    · rcases hd : rec.depth with _ | k
      · rfl
      · exfalso
        rw [hd] at hrp
        obtain ⟨r0, hr0, p⟩ := hrp
        obtain ⟨w, hw⟩ := pathLen_last_edge p
        exact (incoming_nil_iff elements r).mp hinc ⟨w, hw⟩
  · intro u v he du dv hgu hgv
    rcases hvalid u du hgu with h0 | hrp
    · obtain ⟨L0, r0, hr0, p0⟩ :=
        exists_root_path elements hends hacyc u (hends u v he).1
      have hb := hlb r0 ((rootIds_spec elements r0).mpr hr0) v (L0 + 1)
        (pathLen_snoc p0 he) dv hgv
      omega
    · obtain ⟨r0, hr0, p0⟩ := hrp
      have hb := hlb r0 ((rootIds_spec elements r0).mpr hr0) v (du.depth + 1)
        (pathLen_snoc p0 he) dv hgv
      omega

/-- C5, witness: the two-node chain `A 101 -> B 102` with fuel 10. -/
theorem c5_newNodeData_depths_witness :
    (∀ u ∈ (nodesOf exChainElems).map Element.elemId,
      ∃ rec, alGet exChainData u = some rec) ∧
    (∀ r rec, alGet exChainData r = some rec →
      incomingEdgesOf r exChainElems = [] → rec.depth = 0) ∧
    (∀ u v, EdgeRel exChainElems u v → ∀ du dv,
      alGet exChainData u = some du → alGet exChainData v = some dv →
      du.depth + 1 ≤ dv.depth) :=
  c5_newNodeData_depths exChainElems 10 exChainData
    (by
      rintro u v ⟨id, cls, lbl, hmem⟩
      simp only [exChainElems, List.mem_cons, List.not_mem_nil, or_false] at hmem
      rcases hmem with h1 | h1 | h1
      · cases h1
      · cases h1
      · obtain ⟨-, hu, hv, -, -⟩ := Element.edge.inj h1
        subst hu
        subst hv
        exact ⟨by decide, by decide⟩)
    (by
      have hedge : ∀ u v, EdgeRel exChainElems u v →
          u = "A 101" ∧ v = "B 102" := by
        rintro u v ⟨id, cls, lbl, hmem⟩
        simp only [exChainElems, List.mem_cons, List.not_mem_nil,
          or_false] at hmem
        rcases hmem with h1 | h1 | h1
        · cases h1
        · cases h1
        · obtain ⟨-, hu, hv, -, -⟩ := Element.edge.inj h1
          exact ⟨hu, hv⟩
      have key : ∀ (k : Nat) (u v : String), EdgeRel exChainElems u v →
          ¬ PathLen exChainElems v u k := by
        intro k
        induction k with
        | zero =>
          intro u v e p
          obtain ⟨hu, hv⟩ := hedge u v e
          have hvu : v = u := pathLen_zero p
          rw [hu, hv] at hvu
          exact absurd hvu (by decide)
        | succ n ih =>
          intro u v e p
          cases p with
          | cons e2 p2 =>
            rename_i w
            obtain ⟨hv1, _⟩ := hedge v w e2
            obtain ⟨_, hv2⟩ := hedge u v e
            rw [hv2] at hv1
            exact absurd hv1 (by decide)
      intro u k hp
      cases hp with
      | cons e p => exact key k u _ e p)
    (by decide)
